import Mathlib

/- Verification of the fiber-rate-limiter strategies and middleware.
   Time instants and durations are measured in seconds and modelled as exact
   rationals; Go's time.Time / time.Duration arithmetic is embedded as rational
   arithmetic, and the float64 token/queue accounting as exact rational
   arithmetic.  Each Go method that mutates its receiver is embedded as a
   function returning the result together with the updated strategy value. -/

/-- Client identifiers are opaque strings. -/
abbrev ClientId := String

/-- An instant, in seconds. -/
abbrev Instant := ℚ

/-- Update one key of a per-client state mapping, leaving other keys alone. -/
def updateMap {α : Type} (m : ClientId → Option α) (k : ClientId) (v : α) :
    ClientId → Option α :=
  fun c => if c = k then some v else m c

/-- A fixed client id used for concrete evaluations. -/
def cidA : ClientId := "userA"

/-- Per-client record of the fixed-window strategy (fixedWindowState). -/
structure FixedWindowState where
  WindowStart : Instant
  RequestCount : ℤ
deriving DecidableEq

/-- FixedWindowStrategy: limit, window size, and the per-client map. -/
structure FixedWindowStrategy where
  Limit : ℤ
  WindowSize : ℚ
  clients : ClientId → Option FixedWindowState

/-- NewFixedWindowStrategy: stores the parameters with an empty client map. -/
def NewFixedWindowStrategy (limit : ℤ) (windowSize : ℚ) : FixedWindowStrategy :=
  ⟨limit, windowSize, fun _ => none⟩

/-- FixedWindowStrategy.IsRequestAllowed, embedded from the source: create the
record on first sight, roll the window when now is strictly past
windowStart + windowSize, then admit and count while the count is below the
limit. -/
def FixedWindowStrategy.IsRequestAllowed (strategy : FixedWindowStrategy)
    (now : Instant) (clientId : ClientId) : Bool × FixedWindowStrategy :=
  let state0 := (strategy.clients clientId).getD ⟨now, 0⟩
  let state := if state0.WindowStart + strategy.WindowSize < now then
    (⟨now, 0⟩ : FixedWindowState) else state0
  if state.RequestCount < strategy.Limit then
    (true, ⟨strategy.Limit, strategy.WindowSize,
      updateMap strategy.clients clientId ⟨state.WindowStart, state.RequestCount + 1⟩⟩)
  else
    (false, ⟨strategy.Limit, strategy.WindowSize,
      updateMap strategy.clients clientId state⟩)

/-- FixedWindowStrategy.RetryAfter, embedded from the source: 0 for an unseen
client, 0 once the window has strictly elapsed, otherwise the time remaining in
the stored window.  The source performs no writes, so the strategy is returned
unchanged. -/
def FixedWindowStrategy.RetryAfter (strategy : FixedWindowStrategy)
    (now : Instant) (clientId : ClientId) : ℚ × FixedWindowStrategy :=
  match strategy.clients clientId with
  | none => (0, strategy)
  | some state =>
    let windowEnd := state.WindowStart + strategy.WindowSize
    if windowEnd < now then (0, strategy) else (windowEnd - now, strategy)

/-- SlidingWindowStrategy: limit, window size, and per-client timestamp lists. -/
structure SlidingWindowStrategy where
  Limit : ℤ
  WindowSize : ℚ
  clients : ClientId → Option (List Instant)

/-- NewSlidingWindowStrategy: stores the parameters with an empty client map. -/
def NewSlidingWindowStrategy (limit : ℤ) (windowSize : ℚ) : SlidingWindowStrategy :=
  ⟨limit, windowSize, fun _ => none⟩

/-- The trim-from-front loop of the sliding-window source: keep, in order,
exactly the timestamps t with now - t < windowSize. -/
def trimOld (now windowSize : ℚ) : List Instant → List Instant
  | [] => []
  | t :: rest =>
    if now - t < windowSize then t :: trimOld now windowSize rest
    else trimOld now windowSize rest

/-- SlidingWindowStrategy.IsRequestAllowed, embedded from the source: trim the
stored timestamps, then either append now and allow (when fewer than limit
remain) or persist the trimmed list and deny. -/
def SlidingWindowStrategy.IsRequestAllowed (strategy : SlidingWindowStrategy)
    (now : Instant) (clientId : ClientId) : Bool × SlidingWindowStrategy :=
  let timestamps := (strategy.clients clientId).getD []
  let filtered := trimOld now strategy.WindowSize timestamps
  if (filtered.length : ℤ) < strategy.Limit then
    (true, ⟨strategy.Limit, strategy.WindowSize,
      updateMap strategy.clients clientId (filtered ++ [now])⟩)
  else
    (false, ⟨strategy.Limit, strategy.WindowSize,
      updateMap strategy.clients clientId filtered⟩)

/-- SlidingWindowStrategy.RetryAfter, embedded from the source: return 0 when
no timestamps are stored; otherwise trim, persist the trimmed list, return 0
when capacity remains, and otherwise the wait until the oldest stored
timestamp leaves the window, clamped to be nonnegative.  The source indexes
filtered with index 0 in the full branch; when filtered is empty there (only
possible when the configured limit is nonpositive) Go would panic, which is
embedded as the result none. -/
def SlidingWindowStrategy.RetryAfter (strategy : SlidingWindowStrategy)
    (now : Instant) (clientId : ClientId) : Option ℚ × SlidingWindowStrategy :=
  let timestamps := (strategy.clients clientId).getD []
  if timestamps.length = 0 then (some 0, strategy)
  else
    let filtered := trimOld now strategy.WindowSize timestamps
    let strategy2 : SlidingWindowStrategy := ⟨strategy.Limit, strategy.WindowSize,
      updateMap strategy.clients clientId filtered⟩
    if (filtered.length : ℤ) < strategy.Limit then (some 0, strategy2)
    else
      match filtered with
      | [] => (none, strategy2)
      | oldest :: _ =>
        let wait := oldest + strategy.WindowSize - now
        (some (if wait < 0 then 0 else wait), strategy2)

/-- Per-client record of the token-bucket strategy (tokenBucketState). -/
structure TokenBucketState where
  Tokens : ℚ
  LastRefill : Instant
deriving DecidableEq

/-- TokenBucketStrategy: refill rate, bucket size, and the per-client map. -/
structure TokenBucketStrategy where
  RefillRate : ℚ
  BucketSize : ℚ
  clients : ClientId → Option TokenBucketState

/-- NewTokenBucketStrategy: stores the parameters with an empty client map. -/
def NewTokenBucketStrategy (refillRate bucketSize : ℚ) : TokenBucketStrategy :=
  ⟨refillRate, bucketSize, fun _ => none⟩

/-- TokenBucketStrategy.IsRequestAllowed, embedded from the source: a fresh
client starts with a full bucket; tokens refill by elapsed time times the rate,
clamped above by the bucket size; a request needs at least one token and
consumes one. -/
def TokenBucketStrategy.IsRequestAllowed (strategy : TokenBucketStrategy)
    (now : Instant) (clientId : ClientId) : Bool × TokenBucketStrategy :=
  let state := (strategy.clients clientId).getD ⟨strategy.BucketSize, now⟩
  let elapsed := now - state.LastRefill
  let tokens := min strategy.BucketSize (state.Tokens + elapsed * strategy.RefillRate)
  if 1 ≤ tokens then
    (true, ⟨strategy.RefillRate, strategy.BucketSize,
      updateMap strategy.clients clientId ⟨tokens - 1, now⟩⟩)
  else
    (false, ⟨strategy.RefillRate, strategy.BucketSize,
      updateMap strategy.clients clientId ⟨tokens, now⟩⟩)

/-- Modelled from the spec: the repository's TokenBucketStrategy.RetryAfter is
not among the provided source files (only the shared interface declares it).
Following the spec's words for section 4.3: after accounting for the elapsed
time since the last refill under the same clamped refill model, the wait is
the time until tokens reach 1, namely max 0 of (1 - tokens) / refillRate, and
0 for a client id never seen.  The spec describes no state mutation, so the
strategy is returned unchanged. -/
def TokenBucketStrategy.RetryAfter (strategy : TokenBucketStrategy)
    (now : Instant) (clientId : ClientId) : ℚ × TokenBucketStrategy :=
  match strategy.clients clientId with
  | none => (0, strategy)
  | some state =>
    let tokens := min strategy.BucketSize
      (state.Tokens + (now - state.LastRefill) * strategy.RefillRate)
    (max 0 ((1 - tokens) / strategy.RefillRate), strategy)

/-- Per-client record of the leaky-bucket strategy (leakyBucketState). -/
structure LeakyBucketState where
  QueuedRequests : ℚ
  LastLeak : Instant
deriving DecidableEq

/-- LeakyBucketStrategy: leak rate, bucket size, and the per-client map. -/
structure LeakyBucketStrategy where
  LeakRate : ℚ
  BucketSize : ℚ
  clients : ClientId → Option LeakyBucketState

/-- NewLeakyBucketStrategy: stores the parameters with an empty client map. -/
def NewLeakyBucketStrategy (leakRate bucketSize : ℚ) : LeakyBucketStrategy :=
  ⟨leakRate, bucketSize, fun _ => none⟩

/-- LeakyBucketStrategy.IsRequestAllowed, embedded from the source: a fresh
client starts with an empty queue; queued work leaks by elapsed time times the
leak rate, clamped below by 0; a request is admitted and queued exactly when
the queue is strictly below the bucket size. -/
def LeakyBucketStrategy.IsRequestAllowed (strategy : LeakyBucketStrategy)
    (now : Instant) (clientId : ClientId) : Bool × LeakyBucketStrategy :=
  let state := (strategy.clients clientId).getD ⟨0, now⟩
  let elapsed := now - state.LastLeak
  let queued := max 0 (state.QueuedRequests - elapsed * strategy.LeakRate)
  if queued < strategy.BucketSize then
    (true, ⟨strategy.LeakRate, strategy.BucketSize,
      updateMap strategy.clients clientId ⟨queued + 1, now⟩⟩)
  else
    (false, ⟨strategy.LeakRate, strategy.BucketSize,
      updateMap strategy.clients clientId ⟨queued, now⟩⟩)

/-- Modelled from the spec: the repository's LeakyBucketStrategy.RetryAfter is
not among the provided source files (only the shared interface declares it and
a test exercises it).  Following the spec's words for section 4.4: after
accounting for leakage, the wait is 0 when the queue is strictly below the
bucket size (also for a client id never seen), (queued - bucketSize + 1) /
leakRate when the leak rate is positive, and an unbounded wait - embedded as
none - when the bucket is full and the leak rate is not positive.  The spec
describes no state mutation, so the strategy is returned unchanged. -/
def LeakyBucketStrategy.RetryAfter (strategy : LeakyBucketStrategy)
    (now : Instant) (clientId : ClientId) : Option ℚ × LeakyBucketStrategy :=
  match strategy.clients clientId with
  | none => (some 0, strategy)
  | some state =>
    let queued := max 0 (state.QueuedRequests - (now - state.LastLeak) * strategy.LeakRate)
    if queued < strategy.BucketSize then (some 0, strategy)
    else if 0 < strategy.LeakRate then
      (some ((queued - strategy.BucketSize + 1) / strategy.LeakRate), strategy)
    else (none, strategy)

/-- Observable outcome of one middleware invocation: whether a
too-many-requests status was sent, the integer-seconds retry hint header if
one was set, and whether the request was forwarded to the next handler. -/
structure MiddlewareResponse where
  statusTooManyRequests : Bool
  retryAfterHeaderSeconds : Option ℤ
  forwardedToNext : Bool
deriving DecidableEq

/-- RateLimitingMiddleware, embedded from the source: on denial it sends the
too-many-requests status and nothing else - in particular it sets no
retry-hint header and never consults RetryAfter; on allowance it forwards the
request unchanged. -/
def RateLimitingMiddleware (allowed : Bool) : MiddlewareResponse :=
  if allowed then ⟨false, none, true⟩ else ⟨true, none, false⟩

/-- The request-interception contract as the spec states it, for comparison
with RateLimitingMiddleware: on denial send the too-many-requests status and,
exactly when the wait is strictly positive, set it (integer seconds) as the
retry-hint header; on allowance forward unchanged. -/
def specMiddlewareResponse (allowed : Bool) (wait : ℚ) : MiddlewareResponse :=
  if allowed then ⟨false, none, true⟩
  else ⟨true, if 0 < wait then some ⌊wait⌋ else none, false⟩

/-- An operation against a strategy: one IsRequestAllowed call or one
RetryAfter call, at an instant, for a client id. -/
inductive LimiterOp where
  | allow (t : Instant) (cid : ClientId)
  | retry (t : Instant) (cid : ClientId)
deriving DecidableEq

/-- The instant at which an operation happens. -/
def LimiterOp.time : LimiterOp → Instant
  | .allow t _ => t
  | .retry t _ => t

/-- Operation times are nondecreasing (the spec's monotonic clock). -/
def opsMono (ops : List LimiterOp) : Prop :=
  List.Pairwise (fun a b => a.time ≤ b.time) ops

/-- Run a sequence of operations against a fixed-window strategy. -/
def execFixed : List LimiterOp → FixedWindowStrategy → FixedWindowStrategy
  | [], s => s
  | .allow t cid :: rest, s => execFixed rest (s.IsRequestAllowed t cid).2
  | .retry t cid :: rest, s => execFixed rest (s.RetryAfter t cid).2

/-- Run a sequence of operations against a sliding-window strategy. -/
def execSliding : List LimiterOp → SlidingWindowStrategy → SlidingWindowStrategy
  | [], s => s
  | .allow t cid :: rest, s => execSliding rest (s.IsRequestAllowed t cid).2
  | .retry t cid :: rest, s => execSliding rest (s.RetryAfter t cid).2

/-- Run a sequence of operations against a token-bucket strategy. -/
def execToken : List LimiterOp → TokenBucketStrategy → TokenBucketStrategy
  | [], s => s
  | .allow t cid :: rest, s => execToken rest (s.IsRequestAllowed t cid).2
  | .retry t cid :: rest, s => execToken rest (s.RetryAfter t cid).2

/-- Run a sequence of operations against a leaky-bucket strategy. -/
def execLeaky : List LimiterOp → LeakyBucketStrategy → LeakyBucketStrategy
  | [], s => s
  | .allow t cid :: rest, s => execLeaky rest (s.IsRequestAllowed t cid).2
  | .retry t cid :: rest, s => execLeaky rest (s.RetryAfter t cid).2

/-- Perform n successive admission calls, returning the results in call
order together with the final state. -/
def runCalls {σ : Type} (step : σ → Bool × σ) : ℕ → σ → List Bool × σ
  | 0, s => ([], s)
  | n + 1, s =>
    let r := step s
    let rest := runCalls step n r.2
    (r.1 :: rest.1, rest.2)

/-- Perform one admission call at each listed instant, returning the results
in call order together with the final state. -/
def runCallsAt {σ : Type} (step : σ → Instant → Bool × σ) :
    List Instant → σ → List Bool × σ
  | [], s => ([], s)
  | t :: ts, s =>
    let r := step s t
    let rest := runCallsAt step ts r.2
    (r.1 :: rest.1, rest.2)

/-- Apply a sequence of RetryAfter calls for one client to a sliding-window
strategy, keeping only the state. -/
def applySlidingRetries (cid : ClientId) :
    List Instant → SlidingWindowStrategy → SlidingWindowStrategy
  | [], s => s
  | t :: ts, s => applySlidingRetries cid ts (s.RetryAfter t cid).2

/-- The drop predicate exactly as the claim words it, for comparison with
trimOld: drop precisely the timestamps strictly older than the instant
now - windowSize, keeping every timestamp t with now - windowSize ≤ t. -/
def specTrimOlderThan (now windowSize : ℚ) (l : List Instant) : List Instant :=
  l.filter (fun t => now - windowSize ≤ t)

/-- The trim loop keeps exactly the timestamps still inside the window. -/
lemma trimOld_eq_filter (now W : ℚ) (l : List Instant) :
    trimOld now W l = l.filter (fun t => decide (now - t < W)) := by
  induction l with
  | nil => rfl
  | cons t rest ih =>
    by_cases h : now - t < W <;> simp [trimOld, h, ih, List.filter_cons]

/-- Unfold one fixed-window admission call once the stored (or default) record
and the absence of a window roll are known. -/
lemma FixedWindowStrategy.isAllowed_eq (s : FixedWindowStrategy) (now : Instant)
    (cid : ClientId) (st : FixedWindowState)
    (hst : (s.clients cid).getD ⟨now, 0⟩ = st)
    (hnoreset : ¬ (st.WindowStart + s.WindowSize < now)) :
    s.IsRequestAllowed now cid =
      if st.RequestCount < s.Limit then
        (true, ⟨s.Limit, s.WindowSize,
          updateMap s.clients cid ⟨st.WindowStart, st.RequestCount + 1⟩⟩)
      else (false, ⟨s.Limit, s.WindowSize, updateMap s.clients cid st⟩) := by
  simp only [FixedWindowStrategy.IsRequestAllowed, hst]
  rw [if_neg hnoreset]

/-- Generic shape of a burst of same-instant admission calls against a state
that simulates a saturating counter with threshold k: the first k - c calls
succeed and every later call fails. -/
lemma runCalls_char {σ : Type} (step : σ → Bool × σ) (k : ℕ) (R : σ → ℕ → Prop)
    (hstep : ∀ s c, R s c → (step s).1 = decide (c < k) ∧
      R (step s).2 (if c < k then c + 1 else c)) :
    ∀ (n : ℕ) (s : σ) (c : ℕ), R s c →
      (runCalls step n s).1 =
        List.replicate (min n (k - c)) true ++ List.replicate (n - (k - c)) false := by
  intro n
  induction n with
  | zero => intro s c _; simp [runCalls]
  | succ n ih =>
    intro s c h
    obtain ⟨h1, h2⟩ := hstep s c h
    by_cases hc : c < k
    · have hrest := ih (step s).2 (c + 1) (by simpa [hc] using h2)
      have e1 : min (n + 1) (k - c) = min n (k - c - 1) + 1 := by omega
      have e2 : (n + 1) - (k - c) = n - (k - c - 1) := by omega
      have e3 : k - (c + 1) = k - c - 1 := by omega
      rw [e3] at hrest
      simp only [runCalls]
      rw [hrest, h1, e1, e2, List.replicate_succ, List.cons_append]
      simp [hc]
    · have hrest := ih (step s).2 c (by simpa [hc] using h2)
      have e1 : k - c = 0 := by omega
      simp only [runCalls]
      rw [hrest, h1, e1]
      simp [hc, List.replicate_succ]

/-- Writing a key makes it present. -/
lemma updateMap_same {α : Type} (m : ClientId → Option α) (k : ClientId) (v : α) :
    updateMap m k v k = some v := by
  simp [updateMap]

/-- Writing one key leaves every other key unchanged. -/
lemma updateMap_other {α : Type} (m : ClientId → Option α) (k c : ClientId)
    (v : α) (h : c ≠ k) : updateMap m k v c = m c := by
  simp [updateMap, h]

/-- A fixed-window strategy whose record for cid is a same-instant window with
count c (or no record yet, when c = 0) simulates a saturating counter. -/
def fixedFreshRel (now : Instant) (cid : ClientId) (k : ℕ)
    (s : FixedWindowStrategy) (c : ℕ) : Prop :=
  s.Limit = (k : ℤ) ∧ 0 ≤ s.WindowSize ∧
    (s.clients cid = some ⟨now, (c : ℤ)⟩ ∨ (c = 0 ∧ s.clients cid = none))

lemma fixedFreshRel_step (now : Instant) (cid : ClientId) (k : ℕ)
    (s : FixedWindowStrategy) (c : ℕ) (h : fixedFreshRel now cid k s c) :
    (s.IsRequestAllowed now cid).1 = decide (c < k) ∧
      fixedFreshRel now cid k (s.IsRequestAllowed now cid).2
        (if c < k then c + 1 else c) := by
  obtain ⟨hL, hW, hcl⟩ := h
  have hst : (s.clients cid).getD ⟨now, 0⟩ = (⟨now, (c : ℤ)⟩ : FixedWindowState) := by
    rcases hcl with h1 | ⟨rfl, h1⟩ <;> simp [h1]
  have hnr : ¬ ((⟨now, (c : ℤ)⟩ : FixedWindowState).WindowStart + s.WindowSize < now) := by
    show ¬ (now + s.WindowSize < now)
    linarith
  rw [FixedWindowStrategy.isAllowed_eq s now cid _ hst hnr]
  by_cases hck : c < k
  · have hlt : (FixedWindowState.mk now (c : ℤ)).RequestCount < s.Limit := by
      show (c : ℤ) < s.Limit
      rw [hL]
      exact_mod_cast hck
    rw [if_pos hlt, if_pos hck]
    refine ⟨by simp [hck], hL, hW, Or.inl ?_⟩
    simp [updateMap_same, Nat.cast_add, Nat.cast_one]
  · have hlt : ¬ (FixedWindowState.mk now (c : ℤ)).RequestCount < s.Limit := by
      show ¬ ((c : ℤ) < s.Limit)
      rw [hL]
      exact_mod_cast hck
    rw [if_neg hlt, if_neg hck]
    exact ⟨by simp [hck], hL, hW, Or.inl (updateMap_same _ _ _)⟩

/-- A token-bucket strategy whose record for cid holds bucketSize - c tokens
refreshed at this instant (or no record yet, when c = 0) simulates a
saturating counter with threshold bucketSize. -/
def tokenFreshRel (now : Instant) (cid : ClientId) (k : ℕ)
    (s : TokenBucketStrategy) (c : ℕ) : Prop :=
  s.BucketSize = (k : ℚ) ∧ c ≤ k ∧
    (s.clients cid = some ⟨(k : ℚ) - c, now⟩ ∨ (c = 0 ∧ s.clients cid = none))

lemma tokenFreshRel_step (now : Instant) (cid : ClientId) (k : ℕ)
    (s : TokenBucketStrategy) (c : ℕ) (h : tokenFreshRel now cid k s c) :
    (s.IsRequestAllowed now cid).1 = decide (c < k) ∧
      tokenFreshRel now cid k (s.IsRequestAllowed now cid).2
        (if c < k then c + 1 else c) := by
  obtain ⟨hB, hck, hcl⟩ := h
  have hst : (s.clients cid).getD ⟨s.BucketSize, now⟩ =
      (⟨(k : ℚ) - c, now⟩ : TokenBucketState) := by
    rcases hcl with h1 | ⟨rfl, h1⟩ <;> simp [h1, hB]
  have hle : (k : ℚ) - c ≤ s.BucketSize := by
    rw [hB]
    have : (0 : ℚ) ≤ (c : ℚ) := Nat.cast_nonneg c
    linarith
  have htok : min s.BucketSize (((k : ℚ) - c) + (now - now) * s.RefillRate) =
      (k : ℚ) - c := by
    rw [sub_self, zero_mul, add_zero]
    exact min_eq_right hle
  simp only [TokenBucketStrategy.IsRequestAllowed, hst, htok]
  by_cases hlt : c < k
  · have h1 : (1 : ℚ) ≤ (k : ℚ) - c := by
      have : ((c : ℚ)) + 1 ≤ (k : ℚ) := by exact_mod_cast hlt
      linarith
    rw [if_pos h1, if_pos hlt]
    refine ⟨by simp [hlt], hB, by omega, Or.inl ?_⟩
    simp [updateMap_same, Nat.cast_add, Nat.cast_one, sub_sub]
  · have h1 : ¬ ((1 : ℚ) ≤ (k : ℚ) - c) := by
      intro hcon
      have : ((c : ℚ)) + 1 ≤ (k : ℚ) := by linarith
      have : c + 1 ≤ k := by exact_mod_cast this
      omega
    rw [if_neg h1, if_neg hlt]
    exact ⟨by simp [hlt], hB, hck, Or.inl (updateMap_same _ _ _)⟩

/-- A leaky-bucket strategy whose record for cid holds c queued units leaked
at this instant (or no record yet, when c = 0) simulates a saturating counter
with threshold bucketSize. -/
def leakyFreshRel (now : Instant) (cid : ClientId) (k : ℕ)
    (s : LeakyBucketStrategy) (c : ℕ) : Prop :=
  s.BucketSize = (k : ℚ) ∧
    (s.clients cid = some ⟨(c : ℚ), now⟩ ∨ (c = 0 ∧ s.clients cid = none))

lemma leakyFreshRel_step (now : Instant) (cid : ClientId) (k : ℕ)
    (s : LeakyBucketStrategy) (c : ℕ) (h : leakyFreshRel now cid k s c) :
    (s.IsRequestAllowed now cid).1 = decide (c < k) ∧
      leakyFreshRel now cid k (s.IsRequestAllowed now cid).2
        (if c < k then c + 1 else c) := by
  obtain ⟨hB, hcl⟩ := h
  have hst : (s.clients cid).getD ⟨0, now⟩ = (⟨(c : ℚ), now⟩ : LeakyBucketState) := by
    rcases hcl with h1 | ⟨rfl, h1⟩ <;> simp [h1]
  have hq : max 0 ((c : ℚ) - (now - now) * s.LeakRate) = (c : ℚ) := by
    rw [sub_self, zero_mul, sub_zero]
    exact max_eq_right (Nat.cast_nonneg c)
  simp only [LeakyBucketStrategy.IsRequestAllowed, hst, hq]
  by_cases hlt : c < k
  · have h1 : (c : ℚ) < s.BucketSize := by
      rw [hB]
      exact_mod_cast hlt
    rw [if_pos h1, if_pos hlt]
    refine ⟨by simp [hlt], hB, Or.inl ?_⟩
    simp [updateMap_same, Nat.cast_add, Nat.cast_one]
  · have h1 : ¬ ((c : ℚ) < s.BucketSize) := by
      rw [hB]
      exact_mod_cast hlt
    rw [if_neg h1, if_neg hlt]
    exact ⟨by simp [hlt], hB, Or.inl (updateMap_same _ _ _)⟩

/-- Trimming a same-instant run of timestamps keeps all of them whenever the
window size is positive. -/
lemma trimOld_replicate (now W : ℚ) (hW : 0 < W) (c : ℕ) :
    trimOld now W (List.replicate c now) = List.replicate c now := by
  induction c with
  | zero => rfl
  | succ c ih => simp [List.replicate_succ, trimOld, sub_self, hW, ih]

/-- A sliding-window strategy whose record for cid is c copies of this instant
(or no record yet, when c = 0) simulates a saturating counter. -/
def slidingFreshRel (now : Instant) (cid : ClientId) (k : ℕ)
    (s : SlidingWindowStrategy) (c : ℕ) : Prop :=
  s.Limit = (k : ℤ) ∧ 0 < s.WindowSize ∧
    (s.clients cid = some (List.replicate c now) ∨ (c = 0 ∧ s.clients cid = none))

lemma slidingFreshRel_step (now : Instant) (cid : ClientId) (k : ℕ)
    (s : SlidingWindowStrategy) (c : ℕ) (h : slidingFreshRel now cid k s c) :
    (s.IsRequestAllowed now cid).1 = decide (c < k) ∧
      slidingFreshRel now cid k (s.IsRequestAllowed now cid).2
        (if c < k then c + 1 else c) := by
  obtain ⟨hL, hW, hcl⟩ := h
  have hst : (s.clients cid).getD [] = List.replicate c now := by
    rcases hcl with h1 | ⟨rfl, h1⟩ <;> simp [h1]
  have htrim : trimOld now s.WindowSize (List.replicate c now) = List.replicate c now :=
    trimOld_replicate now s.WindowSize hW c
  simp only [SlidingWindowStrategy.IsRequestAllowed, hst, htrim, List.length_replicate]
  by_cases hlt : c < k
  · have h1 : ((c : ℤ) < s.Limit) := by
      rw [hL]
      exact_mod_cast hlt
    rw [if_pos h1, if_pos hlt]
    refine ⟨by simp [hlt], hL, hW, Or.inl ?_⟩
    simp [updateMap_same, List.replicate_succ']
  · have h1 : ¬ ((c : ℤ) < s.Limit) := by
      rw [hL]
      exact_mod_cast hlt
    rw [if_neg h1, if_neg hlt]
    exact ⟨by simp [hlt], hL, hW, Or.inl (updateMap_same _ _ _)⟩

/-- Claim C3: for every strategy configured with capacity k (limit or
bucketSize) and a fresh client id, with no time elapsing between calls, each
of the first k calls to IsRequestAllowed returns true and the (k+1)-th call
returns false.  The window durations are assumed to be actual durations
(nonnegative; strictly positive for the sliding window, where a zero window
expires every timestamp instantly). -/
theorem firstK_allowed_then_denied (k : ℕ) (now : Instant) (cid : ClientId) :
    (∀ W : ℚ, 0 ≤ W →
      (runCalls (fun s => s.IsRequestAllowed now cid) (k + 1)
        (NewFixedWindowStrategy (k : ℤ) W)).1 = List.replicate k true ++ [false])
    ∧ (∀ W : ℚ, 0 < W →
      (runCalls (fun s => s.IsRequestAllowed now cid) (k + 1)
        (NewSlidingWindowStrategy (k : ℤ) W)).1 = List.replicate k true ++ [false])
    ∧ (∀ rr : ℚ,
      (runCalls (fun s => s.IsRequestAllowed now cid) (k + 1)
        (NewTokenBucketStrategy rr (k : ℚ))).1 = List.replicate k true ++ [false])
    ∧ (∀ lr : ℚ,
      (runCalls (fun s => s.IsRequestAllowed now cid) (k + 1)
        (NewLeakyBucketStrategy lr (k : ℚ))).1 = List.replicate k true ++ [false]) := by
  have e1 : min (k + 1) (k - 0) = k := by omega
  have e2 : (k + 1) - (k - 0) = 1 := by omega
  refine ⟨?_, ?_, ?_, ?_⟩
  · intro W hW
    have hchar := runCalls_char (fun s => s.IsRequestAllowed now cid) k
      (fixedFreshRel now cid k) (fun s c h => fixedFreshRel_step now cid k s c h)
      (k + 1) (NewFixedWindowStrategy (k : ℤ) W) 0 ⟨rfl, hW, Or.inr ⟨rfl, rfl⟩⟩
    rw [hchar, e1, e2]
    rfl
  · intro W hW
    have hchar := runCalls_char (fun s => s.IsRequestAllowed now cid) k
      (slidingFreshRel now cid k) (fun s c h => slidingFreshRel_step now cid k s c h)
      (k + 1) (NewSlidingWindowStrategy (k : ℤ) W) 0 ⟨rfl, hW, Or.inr ⟨rfl, rfl⟩⟩
    rw [hchar, e1, e2]
    rfl
  · intro rr
    have hchar := runCalls_char (fun s => s.IsRequestAllowed now cid) k
      (tokenFreshRel now cid k) (fun s c h => tokenFreshRel_step now cid k s c h)
      (k + 1) (NewTokenBucketStrategy rr (k : ℚ)) 0 ⟨rfl, Nat.zero_le k, Or.inr ⟨rfl, rfl⟩⟩
    rw [hchar, e1, e2]
    rfl
  · intro lr
    have hchar := runCalls_char (fun s => s.IsRequestAllowed now cid) k
      (leakyFreshRel now cid k) (fun s c h => leakyFreshRel_step now cid k s c h)
      (k + 1) (NewLeakyBucketStrategy lr (k : ℚ)) 0 ⟨rfl, Or.inr ⟨rfl, rfl⟩⟩
    rw [hchar, e1, e2]
    rfl

/-- Witness for firstK_allowed_then_denied at k = 2, now = 0, with window 1,
refill rate 1 and leak rate 1. -/
theorem firstK_allowed_then_denied_witness :
    (runCalls (fun s => s.IsRequestAllowed 0 cidA) (2 + 1)
        (NewFixedWindowStrategy ((2 : ℕ) : ℤ) 1)).1 = List.replicate 2 true ++ [false]
    ∧ (runCalls (fun s => s.IsRequestAllowed 0 cidA) (2 + 1)
        (NewSlidingWindowStrategy ((2 : ℕ) : ℤ) 1)).1 = List.replicate 2 true ++ [false]
    ∧ (runCalls (fun s => s.IsRequestAllowed 0 cidA) (2 + 1)
        (NewTokenBucketStrategy 1 ((2 : ℕ) : ℚ))).1 = List.replicate 2 true ++ [false]
    ∧ (runCalls (fun s => s.IsRequestAllowed 0 cidA) (2 + 1)
        (NewLeakyBucketStrategy 1 ((2 : ℕ) : ℚ))).1 = List.replicate 2 true ++ [false] := by
  obtain ⟨h1, h2, h3, h4⟩ := firstK_allowed_then_denied 2 0 cidA
  exact ⟨h1 1 (by norm_num), h2 1 (by norm_num), h3 1, h4 1⟩

/-- Claim C9: the coarse per-strategy lock linearizes a burst of concurrent
same-client IsRequestAllowed calls, so the burst behaves as the corresponding
sequence of same-instant calls; out of N such calls against a fresh client
and capacity k, exactly min N k return true.  Concurrency itself is outside
the embedding: this theorem states the admitted count of the linearized
burst. -/
theorem burst_admits_min_capacity (N k : ℕ) (now : Instant) (cid : ClientId) :
    (∀ W : ℚ, 0 ≤ W →
      ((runCalls (fun s => s.IsRequestAllowed now cid) N
        (NewFixedWindowStrategy (k : ℤ) W)).1.count true) = min N k)
    ∧ (∀ W : ℚ, 0 < W →
      ((runCalls (fun s => s.IsRequestAllowed now cid) N
        (NewSlidingWindowStrategy (k : ℤ) W)).1.count true) = min N k)
    ∧ (∀ rr : ℚ,
      ((runCalls (fun s => s.IsRequestAllowed now cid) N
        (NewTokenBucketStrategy rr (k : ℚ))).1.count true) = min N k)
    ∧ (∀ lr : ℚ,
      ((runCalls (fun s => s.IsRequestAllowed now cid) N
        (NewLeakyBucketStrategy lr (k : ℚ))).1.count true) = min N k) := by
  refine ⟨?_, ?_, ?_, ?_⟩
  · intro W hW
    have hchar := runCalls_char (fun s => s.IsRequestAllowed now cid) k
      (fixedFreshRel now cid k) (fun s c h => fixedFreshRel_step now cid k s c h)
      N (NewFixedWindowStrategy (k : ℤ) W) 0 ⟨rfl, hW, Or.inr ⟨rfl, rfl⟩⟩
    rw [hchar]
    simp [List.count_append, List.count_replicate]
  · intro W hW
    have hchar := runCalls_char (fun s => s.IsRequestAllowed now cid) k
      (slidingFreshRel now cid k) (fun s c h => slidingFreshRel_step now cid k s c h)
      N (NewSlidingWindowStrategy (k : ℤ) W) 0 ⟨rfl, hW, Or.inr ⟨rfl, rfl⟩⟩
    rw [hchar]
    simp [List.count_append, List.count_replicate]
  · intro rr
    have hchar := runCalls_char (fun s => s.IsRequestAllowed now cid) k
      (tokenFreshRel now cid k) (fun s c h => tokenFreshRel_step now cid k s c h)
      N (NewTokenBucketStrategy rr (k : ℚ)) 0 ⟨rfl, Nat.zero_le k, Or.inr ⟨rfl, rfl⟩⟩
    rw [hchar]
    simp [List.count_append, List.count_replicate]
  · intro lr
    have hchar := runCalls_char (fun s => s.IsRequestAllowed now cid) k
      (leakyFreshRel now cid k) (fun s c h => leakyFreshRel_step now cid k s c h)
      N (NewLeakyBucketStrategy lr (k : ℚ)) 0 ⟨rfl, Or.inr ⟨rfl, rfl⟩⟩
    rw [hchar]
    simp [List.count_append, List.count_replicate]

/-- Witness for burst_admits_min_capacity at N = 3, k = 2, now = 0, with
window 1, refill rate 1 and leak rate 1. -/
theorem burst_admits_min_capacity_witness :
    ((runCalls (fun s => s.IsRequestAllowed 0 cidA) 3
        (NewFixedWindowStrategy ((2 : ℕ) : ℤ) 1)).1.count true) = min 3 2
    ∧ ((runCalls (fun s => s.IsRequestAllowed 0 cidA) 3
        (NewSlidingWindowStrategy ((2 : ℕ) : ℤ) 1)).1.count true) = min 3 2
    ∧ ((runCalls (fun s => s.IsRequestAllowed 0 cidA) 3
        (NewTokenBucketStrategy 1 ((2 : ℕ) : ℚ))).1.count true) = min 3 2
    ∧ ((runCalls (fun s => s.IsRequestAllowed 0 cidA) 3
        (NewLeakyBucketStrategy 1 ((2 : ℕ) : ℚ))).1.count true) = min 3 2 := by
  obtain ⟨h1, h2, h3, h4⟩ := burst_admits_min_capacity 3 2 0 cidA
  exact ⟨h1 1 (by norm_num), h2 1 (by norm_num), h3 1, h4 1⟩

/-- Claim C10: a token bucket configured with bucketSize strictly below 1
denies every request: each call clamps the refilled token count to at most
bucketSize before comparing against the admission threshold of one token, so
no client state whatsoever can be admitted. -/
theorem tokenBucket_subunit_capacity_never_allows (s : TokenBucketStrategy)
    (now : Instant) (cid : ClientId) (h : s.BucketSize < 1) :
    (s.IsRequestAllowed now cid).1 = false := by
  have hm : ∀ x : ℚ, min s.BucketSize x < 1 :=
    fun x => lt_of_le_of_lt (min_le_left _ _) h
  simp only [TokenBucketStrategy.IsRequestAllowed]
  rw [if_neg (not_le.mpr (hm _))]

/-- Witness for tokenBucket_subunit_capacity_never_allows with bucketSize a
half. -/
theorem tokenBucket_subunit_capacity_never_allows_witness :
    ((NewTokenBucketStrategy 1 (1 / 2)).IsRequestAllowed 0 cidA).1 = false :=
  tokenBucket_subunit_capacity_never_allows (NewTokenBucketStrategy 1 (1 / 2)) 0 cidA
    (by norm_num [NewTokenBucketStrategy])

/-- Claim C8: the middleware as implemented answers every denied request with
the too-many-requests status but never sets the retry-hint header - it does
not even consult RetryAfter - while the spec's interception contract (and the
repository's own middleware tests, for instance a denial with a two-second
wait) requires the header to carry the positive wait in integer seconds.
Allowed requests are forwarded unchanged by both. -/
theorem middleware_denies_without_retry_hint :
    RateLimitingMiddleware false = ⟨true, none, false⟩
    ∧ specMiddlewareResponse false 2 = ⟨true, some 2, false⟩
    ∧ RateLimitingMiddleware true = ⟨false, none, true⟩ := by
  refine ⟨rfl, ?_, rfl⟩
  norm_num [specMiddlewareResponse]

/-- One leaky-bucket admission call against a full single-slot bucket with
zero leak rate is denied and leaves the queue full. -/
lemma leaky_full_stays_denied (cid : ClientId) :
    ∀ (ts : List Instant) (s : LeakyBucketStrategy), s.LeakRate = 0 →
      s.BucketSize = 1 → (∃ q t0, s.clients cid = some ⟨q, t0⟩ ∧ 1 ≤ q) →
      (runCallsAt (fun s t => s.IsRequestAllowed t cid) ts s).1 =
        List.replicate ts.length false := by
  intro ts
  induction ts with
  | nil => intro s _ _ _; simp [runCallsAt]
  | cons t ts ih =>
    intro s hLR hBS hinv
    obtain ⟨q, t0, hcl, hq⟩ := hinv
    have hst : (s.clients cid).getD ⟨0, t⟩ = (⟨q, t0⟩ : LeakyBucketState) := by
      simp [hcl]
    have hqq : max 0 (q - (t - t0) * s.LeakRate) = q := by
      rw [hLR, mul_zero, sub_zero]
      exact max_eq_right (by linarith)
    have hcond : ¬ (q < s.BucketSize) := by
      rw [hBS]
      linarith
    have hstep : s.IsRequestAllowed t cid =
        (false, ⟨s.LeakRate, s.BucketSize, updateMap s.clients cid ⟨q, t⟩⟩) := by
      simp only [LeakyBucketStrategy.IsRequestAllowed, hst, hqq]
      rw [if_neg hcond]
    simp only [runCallsAt, hstep]
    rw [ih ⟨s.LeakRate, s.BucketSize, updateMap s.clients cid ⟨q, t⟩⟩ hLR hBS
      ⟨q, t, updateMap_same _ _ _, hq⟩]
    rfl

/-- Claim C6: a leaky bucket with bucketSize 1 and leakRate 0 admits the first
call of a client and then denies every later call at every instant - with a
zero leak rate no elapsed time, however large, ever frees capacity. -/
theorem leakyBucket_zero_leak_denies_forever (cid : ClientId) (t0 : Instant) :
    ((NewLeakyBucketStrategy 0 1).IsRequestAllowed t0 cid).1 = true
    ∧ ∀ ts : List Instant,
      (runCallsAt (fun s t => s.IsRequestAllowed t cid) ts
        ((NewLeakyBucketStrategy 0 1).IsRequestAllowed t0 cid).2).1 =
        List.replicate ts.length false := by
  have hstep : (NewLeakyBucketStrategy 0 1).IsRequestAllowed t0 cid =
      (true, ⟨0, 1, updateMap (fun _ => none) cid ⟨1, t0⟩⟩) := by
    simp only [LeakyBucketStrategy.IsRequestAllowed, NewLeakyBucketStrategy]
    norm_num
  constructor
  · rw [hstep]
  · intro ts
    rw [hstep]
    exact leaky_full_stays_denied cid ts _ rfl rfl
      ⟨1, t0, by simp [updateMap_same], le_refl 1⟩

/-- The fixed-window RetryAfter performs no state writes. -/
lemma fixed_retryAfter_no_write (s : FixedWindowStrategy)
    (now : Instant) (cid : ClientId) : (s.RetryAfter now cid).2 = s := by
  unfold FixedWindowStrategy.RetryAfter
  cases s.clients cid
  · rfl
  · dsimp only
    split <;> rfl

/-- The token-bucket RetryAfter performs no state writes. -/
lemma token_retryAfter_no_write (s : TokenBucketStrategy)
    (now : Instant) (cid : ClientId) : (s.RetryAfter now cid).2 = s := by
  unfold TokenBucketStrategy.RetryAfter
  cases s.clients cid <;> rfl

/-- The leaky-bucket RetryAfter performs no state writes. -/
lemma leaky_retryAfter_no_write (s : LeakyBucketStrategy)
    (now : Instant) (cid : ClientId) : (s.RetryAfter now cid).2 = s := by
  unfold LeakyBucketStrategy.RetryAfter
  cases s.clients cid
  · rfl
  · dsimp only
    split
    · rfl
    · split <;> rfl

/-- Looking up any key after a write yields either the written value (at the
written key) or the old entry. -/
lemma updateMap_cases {α : Type} (m : ClientId → Option α) (k : ClientId)
    (v : α) (c : ClientId) (st : α) (h : updateMap m k v c = some st) :
    st = v ∨ m c = some st := by
  unfold updateMap at h
  by_cases hc : c = k
  · rw [if_pos hc] at h
    exact Or.inl (Option.some.inj h).symm
  · rw [if_neg hc] at h
    exact Or.inr h

/-- One fixed-window admission call writes exactly one record, for the called
client, into an otherwise unchanged strategy; the written count stays within
the configured bounds whenever all previous counts did. -/
lemma fixed_isAllowed_written (s : FixedWindowStrategy) (now : Instant)
    (cid : ClientId) (hL : 0 ≤ s.Limit)
    (hb : ∀ st0, s.clients cid = some st0 →
      0 ≤ st0.RequestCount ∧ st0.RequestCount ≤ s.Limit) :
    ∃ st : FixedWindowState,
      (s.IsRequestAllowed now cid).2 =
        ⟨s.Limit, s.WindowSize, updateMap s.clients cid st⟩ ∧
      0 ≤ st.RequestCount ∧ st.RequestCount ≤ s.Limit := by
  have hb0 : 0 ≤ ((s.clients cid).getD ⟨now, 0⟩).RequestCount ∧
      ((s.clients cid).getD ⟨now, 0⟩).RequestCount ≤ s.Limit := by
    cases hc : s.clients cid with
    | none => exact ⟨le_refl 0, hL⟩
    | some st0 => simpa using hb st0 hc
  by_cases hr : ((s.clients cid).getD ⟨now, 0⟩).WindowStart + s.WindowSize < now
  · have heq : s.IsRequestAllowed now cid =
        if (0 : ℤ) < s.Limit then
          (true, ⟨s.Limit, s.WindowSize, updateMap s.clients cid ⟨now, 1⟩⟩)
        else (false, ⟨s.Limit, s.WindowSize, updateMap s.clients cid ⟨now, 0⟩⟩) := by
      simp only [FixedWindowStrategy.IsRequestAllowed]
      rw [if_pos hr]
      norm_num
    by_cases ha : (0 : ℤ) < s.Limit
    · rw [if_pos ha] at heq
      exact ⟨⟨now, 1⟩, by rw [heq], by norm_num, by dsimp only; omega⟩
    · rw [if_neg ha] at heq
      exact ⟨⟨now, 0⟩, by rw [heq], le_refl 0, hL⟩
  · have heq : s.IsRequestAllowed now cid =
        if ((s.clients cid).getD ⟨now, 0⟩).RequestCount < s.Limit then
          (true, ⟨s.Limit, s.WindowSize, updateMap s.clients cid
            ⟨((s.clients cid).getD ⟨now, 0⟩).WindowStart,
             ((s.clients cid).getD ⟨now, 0⟩).RequestCount + 1⟩⟩)
        else (false, ⟨s.Limit, s.WindowSize,
          updateMap s.clients cid ((s.clients cid).getD ⟨now, 0⟩)⟩) := by
      simp only [FixedWindowStrategy.IsRequestAllowed]
      rw [if_neg hr]
    by_cases ha : ((s.clients cid).getD ⟨now, 0⟩).RequestCount < s.Limit
    · rw [if_pos ha] at heq
      refine ⟨_, by rw [heq], ?_, ?_⟩
      · dsimp only
        omega
      · dsimp only
        omega
    · rw [if_neg ha] at heq
      exact ⟨_, by rw [heq], hb0.1, hb0.2⟩

/-- Every fixed-window record has a count between 0 and the limit. -/
def fixedRecordsOk (s : FixedWindowStrategy) : Prop :=
  ∀ cid st, s.clients cid = some st →
    0 ≤ st.RequestCount ∧ st.RequestCount ≤ s.Limit

/-- One admission call preserves the fixed-window count bounds. -/
lemma fixedRecordsOk_allow (s : FixedWindowStrategy) (now : Instant)
    (cid : ClientId) (hL : 0 ≤ s.Limit) (h : fixedRecordsOk s) :
    fixedRecordsOk (s.IsRequestAllowed now cid).2 := by
  obtain ⟨st, heq, h0, h1⟩ := fixed_isAllowed_written s now cid hL (fun st0 hst0 => h cid st0 hst0)
  rw [heq]
  intro cid' st' h'
  rcases updateMap_cases _ _ _ _ _ h' with hv | hold
  · subst hv
    exact ⟨h0, h1⟩
  · exact h cid' st' hold

/-- Admission calls do not change the fixed-window configuration. -/
lemma fixed_isAllowed_config (s : FixedWindowStrategy) (now : Instant)
    (cid : ClientId) :
    (s.IsRequestAllowed now cid).2.Limit = s.Limit ∧
      (s.IsRequestAllowed now cid).2.WindowSize = s.WindowSize := by
  simp only [FixedWindowStrategy.IsRequestAllowed]
  refine ⟨?_, ?_⟩ <;> (repeat' split) <;> rfl

/-- Running a trace does not change the fixed-window configuration. -/
lemma execFixed_config : ∀ (ops : List LimiterOp) (s : FixedWindowStrategy),
    (execFixed ops s).Limit = s.Limit ∧
      (execFixed ops s).WindowSize = s.WindowSize := by
  intro ops
  induction ops with
  | nil => exact fun s => ⟨rfl, rfl⟩
  | cons op rest ih =>
    intro s
    cases op with
    | allow t cid =>
      have h1 := fixed_isAllowed_config s t cid
      have h2 := ih (s.IsRequestAllowed t cid).2
      exact ⟨h2.1.trans h1.1, h2.2.trans h1.2⟩
    | retry t cid =>
      simp only [execFixed, fixed_retryAfter_no_write]
      exact ih s

/-- Running a trace preserves the fixed-window count bounds. -/
lemma fixedRecordsOk_exec : ∀ (ops : List LimiterOp) (s : FixedWindowStrategy),
    0 ≤ s.Limit → fixedRecordsOk s → fixedRecordsOk (execFixed ops s) := by
  intro ops
  induction ops with
  | nil => exact fun s _ h => h
  | cons op rest ih =>
    intro s hL h
    cases op with
    | allow t cid =>
      exact ih _ (by rw [(fixed_isAllowed_config s t cid).1]; exact hL)
        (fixedRecordsOk_allow s t cid hL h)
    | retry t cid =>
      simp only [execFixed, fixed_retryAfter_no_write]
      exact ih s hL h

/-- Unfold one token-bucket admission call once the stored (or default)
record is known. -/
lemma token_isAllowed_eq (s : TokenBucketStrategy) (now : Instant)
    (cid : ClientId) (st0 : TokenBucketState)
    (h0 : (s.clients cid).getD ⟨s.BucketSize, now⟩ = st0) :
    s.IsRequestAllowed now cid =
      if 1 ≤ min s.BucketSize (st0.Tokens + (now - st0.LastRefill) * s.RefillRate) then
        (true, ⟨s.RefillRate, s.BucketSize, updateMap s.clients cid
          ⟨min s.BucketSize (st0.Tokens + (now - st0.LastRefill) * s.RefillRate) - 1, now⟩⟩)
      else
        (false, ⟨s.RefillRate, s.BucketSize, updateMap s.clients cid
          ⟨min s.BucketSize (st0.Tokens + (now - st0.LastRefill) * s.RefillRate), now⟩⟩) := by
  simp only [TokenBucketStrategy.IsRequestAllowed, h0]

/-- Admission calls do not change the token-bucket configuration. -/
lemma token_isAllowed_config (s : TokenBucketStrategy) (now : Instant)
    (cid : ClientId) :
    (s.IsRequestAllowed now cid).2.RefillRate = s.RefillRate ∧
      (s.IsRequestAllowed now cid).2.BucketSize = s.BucketSize := by
  rw [token_isAllowed_eq s now cid _ rfl]
  refine ⟨?_, ?_⟩ <;> (repeat' split) <;> rfl

/-- Running a trace does not change the token-bucket configuration. -/
lemma execToken_config : ∀ (ops : List LimiterOp) (s : TokenBucketStrategy),
    (execToken ops s).RefillRate = s.RefillRate ∧
      (execToken ops s).BucketSize = s.BucketSize := by
  intro ops
  induction ops with
  | nil => exact fun s => ⟨rfl, rfl⟩
  | cons op rest ih =>
    intro s
    cases op with
    | allow t cid =>
      have h1 := token_isAllowed_config s t cid
      have h2 := ih (s.IsRequestAllowed t cid).2
      exact ⟨h2.1.trans h1.1, h2.2.trans h1.2⟩
    | retry t cid =>
      simp only [execToken, token_retryAfter_no_write]
      exact ih s

/-- Every token-bucket record (as of instant tcur) has tokens between 0 and
the bucket size and was last refilled no later than tcur. -/
def tokenRecordsOk (s : TokenBucketStrategy) (tcur : ℚ) : Prop :=
  ∀ cid st, s.clients cid = some st →
    0 ≤ st.Tokens ∧ st.Tokens ≤ s.BucketSize ∧ st.LastRefill ≤ tcur

/-- The token-record invariant is monotone in the reference instant. -/
lemma tokenRecordsOk_mono (s : TokenBucketStrategy) (t1 t2 : ℚ)
    (h12 : t1 ≤ t2) (h : tokenRecordsOk s t1) : tokenRecordsOk s t2 :=
  fun cid st hst =>
    ⟨(h cid st hst).1, (h cid st hst).2.1, le_trans (h cid st hst).2.2 h12⟩

/-- One admission call at instant now preserves the token bounds. -/
lemma tokenRecordsOk_allow (s : TokenBucketStrategy) (now : Instant)
    (cid : ClientId) (tcur : ℚ) (hbs : 0 ≤ s.BucketSize)
    (hrr : 0 ≤ s.RefillRate) (hle : tcur ≤ now) (h : tokenRecordsOk s tcur) :
    tokenRecordsOk (s.IsRequestAllowed now cid).2 now := by
  have hb0 : 0 ≤ ((s.clients cid).getD ⟨s.BucketSize, now⟩).Tokens ∧
      ((s.clients cid).getD ⟨s.BucketSize, now⟩).Tokens ≤ s.BucketSize ∧
      ((s.clients cid).getD ⟨s.BucketSize, now⟩).LastRefill ≤ now := by
    cases hc : s.clients cid with
    | none => exact ⟨hbs, le_refl _, le_refl _⟩
    | some st0 =>
      obtain ⟨u1, u2, u3⟩ := h cid st0 hc
      simp only [hc, Option.getD_some]
      exact ⟨u1, u2, le_trans u3 hle⟩
  rw [token_isAllowed_eq s now cid _ rfl]
  set tk := min s.BucketSize
    (((s.clients cid).getD ⟨s.BucketSize, now⟩).Tokens +
      (now - ((s.clients cid).getD ⟨s.BucketSize, now⟩).LastRefill) * s.RefillRate) with htk
  have htk0 : 0 ≤ tk := by
    apply le_min hbs
    have he : 0 ≤ now - ((s.clients cid).getD ⟨s.BucketSize, now⟩).LastRefill := by
      linarith [hb0.2.2]
    have := mul_nonneg he hrr
    linarith [hb0.1]
  have htk1 : tk ≤ s.BucketSize := min_le_left _ _
  by_cases ha : (1 : ℚ) ≤ tk
  · rw [if_pos ha]
    intro cid' st' h'
    rcases updateMap_cases _ _ _ _ _ h' with hv | hold
    · subst hv
      refine ⟨by dsimp only; linarith, by dsimp only; linarith, by dsimp only; linarith⟩
    · obtain ⟨u1, u2, u3⟩ := h cid' st' hold
      exact ⟨u1, u2, le_trans u3 hle⟩
  · rw [if_neg ha]
    intro cid' st' h'
    rcases updateMap_cases _ _ _ _ _ h' with hv | hold
    · subst hv
      refine ⟨by dsimp only; linarith, by dsimp only; linarith, by dsimp only; linarith⟩
    · obtain ⟨u1, u2, u3⟩ := h cid' st' hold
      exact ⟨u1, u2, le_trans u3 hle⟩

/-- Running a monotone-time trace preserves the token bounds. -/
lemma tokenRecordsOk_exec : ∀ (ops : List LimiterOp) (s : TokenBucketStrategy)
    (tcur : ℚ), 0 ≤ s.BucketSize → 0 ≤ s.RefillRate → tokenRecordsOk s tcur →
    opsMono ops → (∀ op ∈ ops, tcur ≤ op.time) →
    ∃ tfin, tokenRecordsOk (execToken ops s) tfin := by
  intro ops
  induction ops with
  | nil => exact fun s tcur _ _ h _ _ => ⟨tcur, h⟩
  | cons op rest ih =>
    intro s tcur hbs hrr h hmono hall
    obtain ⟨hhead, htail⟩ := List.pairwise_cons.mp hmono
    have htle : tcur ≤ op.time := hall op (List.mem_cons_self _ _)
    cases op with
    | allow t cid =>
      have hcfg := token_isAllowed_config s t cid
      exact ih (s.IsRequestAllowed t cid).2 t (hcfg.2.symm ▸ hbs) (hcfg.1.symm ▸ hrr)
        (tokenRecordsOk_allow s t cid tcur hbs hrr htle h) htail
        (fun b hb => hhead b hb)
    | retry t cid =>
      simp only [execToken, token_retryAfter_no_write]
      exact ih s t hbs hrr (tokenRecordsOk_mono s tcur t htle h) htail
        (fun b hb => hhead b hb)

/-- Unfold one leaky-bucket admission call once the stored (or default)
record is known. -/
lemma leaky_isAllowed_eq (s : LeakyBucketStrategy) (now : Instant)
    (cid : ClientId) (st0 : LeakyBucketState)
    (h0 : (s.clients cid).getD ⟨0, now⟩ = st0) :
    s.IsRequestAllowed now cid =
      if max 0 (st0.QueuedRequests - (now - st0.LastLeak) * s.LeakRate) < s.BucketSize then
        (true, ⟨s.LeakRate, s.BucketSize, updateMap s.clients cid
          ⟨max 0 (st0.QueuedRequests - (now - st0.LastLeak) * s.LeakRate) + 1, now⟩⟩)
      else
        (false, ⟨s.LeakRate, s.BucketSize, updateMap s.clients cid
          ⟨max 0 (st0.QueuedRequests - (now - st0.LastLeak) * s.LeakRate), now⟩⟩) := by
  simp only [LeakyBucketStrategy.IsRequestAllowed, h0]

/-- Admission calls do not change the leaky-bucket configuration. -/
lemma leaky_isAllowed_config (s : LeakyBucketStrategy) (now : Instant)
    (cid : ClientId) :
    (s.IsRequestAllowed now cid).2.LeakRate = s.LeakRate ∧
      (s.IsRequestAllowed now cid).2.BucketSize = s.BucketSize := by
  rw [leaky_isAllowed_eq s now cid _ rfl]
  refine ⟨?_, ?_⟩ <;> (repeat' split) <;> rfl

/-- Running a trace does not change the leaky-bucket configuration. -/
lemma execLeaky_config : ∀ (ops : List LimiterOp) (s : LeakyBucketStrategy),
    (execLeaky ops s).LeakRate = s.LeakRate ∧
      (execLeaky ops s).BucketSize = s.BucketSize := by
  intro ops
  induction ops with
  | nil => exact fun s => ⟨rfl, rfl⟩
  | cons op rest ih =>
    intro s
    cases op with
    | allow t cid =>
      have h1 := leaky_isAllowed_config s t cid
      have h2 := ih (s.IsRequestAllowed t cid).2
      exact ⟨h2.1.trans h1.1, h2.2.trans h1.2⟩
    | retry t cid =>
      simp only [execLeaky, leaky_retryAfter_no_write]
      exact ih s

/-- Every leaky-bucket record (as of instant tcur) has a queue between 0 and
strictly below bucketSize + 1, last leaked no later than tcur. -/
def leakyRecordsOk (s : LeakyBucketStrategy) (tcur : ℚ) : Prop :=
  ∀ cid st, s.clients cid = some st →
    0 ≤ st.QueuedRequests ∧ st.QueuedRequests < s.BucketSize + 1 ∧
      st.LastLeak ≤ tcur

/-- The leaky-record invariant is monotone in the reference instant. -/
lemma leakyRecordsOk_mono (s : LeakyBucketStrategy) (t1 t2 : ℚ)
    (h12 : t1 ≤ t2) (h : leakyRecordsOk s t1) : leakyRecordsOk s t2 :=
  fun cid st hst =>
    ⟨(h cid st hst).1, (h cid st hst).2.1, le_trans (h cid st hst).2.2 h12⟩

/-- One admission call at instant now preserves the queue bounds. -/
lemma leakyRecordsOk_allow (s : LeakyBucketStrategy) (now : Instant)
    (cid : ClientId) (tcur : ℚ) (hbs : 0 ≤ s.BucketSize)
    (hlr : 0 ≤ s.LeakRate) (hle : tcur ≤ now) (h : leakyRecordsOk s tcur) :
    leakyRecordsOk (s.IsRequestAllowed now cid).2 now := by
  have hb0 : 0 ≤ ((s.clients cid).getD ⟨0, now⟩).QueuedRequests ∧
      ((s.clients cid).getD ⟨0, now⟩).QueuedRequests < s.BucketSize + 1 ∧
      ((s.clients cid).getD ⟨0, now⟩).LastLeak ≤ now := by
    cases hc : s.clients cid with
    | none =>
      refine ⟨le_rfl, ?_, le_rfl⟩
      show (0 : ℚ) < s.BucketSize + 1
      linarith
    | some st0 =>
      obtain ⟨u1, u2, u3⟩ := h cid st0 hc
      simp only [hc, Option.getD_some]
      exact ⟨u1, u2, le_trans u3 hle⟩
  rw [leaky_isAllowed_eq s now cid _ rfl]
  set q := max 0 (((s.clients cid).getD ⟨0, now⟩).QueuedRequests -
    (now - ((s.clients cid).getD ⟨0, now⟩).LastLeak) * s.LeakRate) with hq
  have hq0 : 0 ≤ q := le_max_left _ _
  have hq1 : q ≤ ((s.clients cid).getD ⟨0, now⟩).QueuedRequests := by
    apply max_le hb0.1
    have he : 0 ≤ now - ((s.clients cid).getD ⟨0, now⟩).LastLeak := by
      linarith [hb0.2.2]
    have := mul_nonneg he hlr
    linarith
  by_cases ha : q < s.BucketSize
  · rw [if_pos ha]
    intro cid' st' h'
    rcases updateMap_cases _ _ _ _ _ h' with hv | hold
    · subst hv
      refine ⟨by dsimp only; linarith, by dsimp only; linarith, by dsimp only; linarith⟩
    · obtain ⟨u1, u2, u3⟩ := h cid' st' hold
      exact ⟨u1, u2, le_trans u3 hle⟩
  · rw [if_neg ha]
    intro cid' st' h'
    rcases updateMap_cases _ _ _ _ _ h' with hv | hold
    · subst hv
      refine ⟨by dsimp only; linarith, by dsimp only; linarith [hb0.2.1], by dsimp only; linarith⟩
    · obtain ⟨u1, u2, u3⟩ := h cid' st' hold
      exact ⟨u1, u2, le_trans u3 hle⟩

/-- Running a monotone-time trace preserves the queue bounds. -/
lemma leakyRecordsOk_exec : ∀ (ops : List LimiterOp) (s : LeakyBucketStrategy)
    (tcur : ℚ), 0 ≤ s.BucketSize → 0 ≤ s.LeakRate → leakyRecordsOk s tcur →
    opsMono ops → (∀ op ∈ ops, tcur ≤ op.time) →
    ∃ tfin, leakyRecordsOk (execLeaky ops s) tfin := by
  intro ops
  induction ops with
  | nil => exact fun s tcur _ _ h _ _ => ⟨tcur, h⟩
  | cons op rest ih =>
    intro s tcur hbs hlr h hmono hall
    obtain ⟨hhead, htail⟩ := List.pairwise_cons.mp hmono
    have htle : tcur ≤ op.time := hall op (List.mem_cons_self _ _)
    cases op with
    | allow t cid =>
      have hcfg := leaky_isAllowed_config s t cid
      exact ih (s.IsRequestAllowed t cid).2 t (hcfg.2.symm ▸ hbs) (hcfg.1.symm ▸ hlr)
        (leakyRecordsOk_allow s t cid tcur hbs hlr htle h) htail
        (fun b hb => hhead b hb)
    | retry t cid =>
      simp only [execLeaky, leaky_retryAfter_no_write]
      exact ih s t hbs hlr (leakyRecordsOk_mono s tcur t htle h) htail
        (fun b hb => hhead b hb)

/-- Claim C4 (amended): along every monotone-time trace of operations from a
freshly constructed strategy with nonnegative parameters, the fixed-window
count stays within 0 and limit and the token-bucket tokens stay within 0 and
bucketSize; the leaky-bucket queue stays nonnegative but is bounded only by
bucketSize + 1 (strictly), not by bucketSize: after a partial leak the
admitting increment can push the queue a fraction above the configured
capacity. -/
theorem accounting_fields_bounded (ops : List LimiterOp) (cid : ClientId) :
    (∀ (L : ℤ) (W : ℚ) (st : FixedWindowState), 0 ≤ L →
      (execFixed ops (NewFixedWindowStrategy L W)).clients cid = some st →
      0 ≤ st.RequestCount ∧ st.RequestCount ≤ L)
    ∧ (∀ (rr bs : ℚ) (st : TokenBucketState), 0 ≤ rr → 0 ≤ bs → opsMono ops →
      (execToken ops (NewTokenBucketStrategy rr bs)).clients cid = some st →
      0 ≤ st.Tokens ∧ st.Tokens ≤ bs)
    ∧ (∀ (lr bs : ℚ) (st : LeakyBucketState), 0 ≤ lr → 0 ≤ bs → opsMono ops →
      (execLeaky ops (NewLeakyBucketStrategy lr bs)).clients cid = some st →
      0 ≤ st.QueuedRequests ∧ st.QueuedRequests < bs + 1) := by
  refine ⟨?_, ?_, ?_⟩
  · intro L W st hL hst
    have hinv := fixedRecordsOk_exec ops (NewFixedWindowStrategy L W) hL
      (fun cid' st' h' => by simp [NewFixedWindowStrategy] at h')
    obtain ⟨u1, u2⟩ := hinv cid st hst
    rw [(execFixed_config ops (NewFixedWindowStrategy L W)).1] at u2
    exact ⟨u1, u2⟩
  · intro rr bs st hrr hbs hmono hst
    rcases ops with _ | ⟨op, rest⟩
    · simp [execToken, NewTokenBucketStrategy] at hst
    · obtain ⟨tfin, hinv⟩ := tokenRecordsOk_exec (op :: rest)
        (NewTokenBucketStrategy rr bs) op.time hbs hrr
        (fun cid' st' h' => by simp [NewTokenBucketStrategy] at h')
        hmono
        (fun b hb => by
          rcases List.mem_cons.mp hb with hb1 | hb2
          · rw [hb1]
          · exact (List.pairwise_cons.mp hmono).1 b hb2)
      obtain ⟨u1, u2, _⟩ := hinv cid st hst
      rw [(execToken_config (op :: rest) (NewTokenBucketStrategy rr bs)).2] at u2
      exact ⟨u1, u2⟩
  · intro lr bs st hlr hbs hmono hst
    rcases ops with _ | ⟨op, rest⟩
    · simp [execLeaky, NewLeakyBucketStrategy] at hst
    · obtain ⟨tfin, hinv⟩ := leakyRecordsOk_exec (op :: rest)
        (NewLeakyBucketStrategy lr bs) op.time hbs hlr
        (fun cid' st' h' => by simp [NewLeakyBucketStrategy] at h')
        hmono
        (fun b hb => by
          rcases List.mem_cons.mp hb with hb1 | hb2
          · rw [hb1]
          · exact (List.pairwise_cons.mp hmono).1 b hb2)
      obtain ⟨u1, u2, _⟩ := hinv cid st hst
      rw [(execLeaky_config (op :: rest) (NewLeakyBucketStrategy lr bs)).2] at u2
      exact ⟨u1, u2⟩

/-- Claim C4 counterexample: with leakRate 1 and bucketSize 1, one admitted
request at instant 0 and a second admitted request at instant one half leave
the client's queue at three halves, strictly above the configured bucketSize:
a partial leak frees capacity and the admitting increment overshoots it, so
the queue is not bounded by the configured capacity. -/
theorem accounting_fields_bounded_counterexample :
    ∃ st : LeakyBucketState,
      (execLeaky [LimiterOp.allow 0 cidA, LimiterOp.allow (1 / 2) cidA]
        (NewLeakyBucketStrategy 1 1)).clients cidA = some st ∧
      (NewLeakyBucketStrategy 1 1).BucketSize < st.QueuedRequests := by
  refine ⟨⟨3 / 2, 1 / 2⟩, ?_, by norm_num [NewLeakyBucketStrategy]⟩
  norm_num [execLeaky, LeakyBucketStrategy.IsRequestAllowed,
    NewLeakyBucketStrategy, updateMap]

/-- Witness for accounting_fields_bounded on the one-operation trace of one
admitted request at instant 0 against capacity 1. -/
theorem accounting_fields_bounded_witness :
    (0 ≤ (FixedWindowState.mk 0 1).RequestCount ∧
      (FixedWindowState.mk 0 1).RequestCount ≤ (1 : ℤ))
    ∧ (0 ≤ (TokenBucketState.mk 0 0).Tokens ∧
      (TokenBucketState.mk 0 0).Tokens ≤ (1 : ℚ))
    ∧ (0 ≤ (LeakyBucketState.mk 1 0).QueuedRequests ∧
      (LeakyBucketState.mk 1 0).QueuedRequests < (1 : ℚ) + 1) := by
  obtain ⟨hf, ht, hl⟩ := accounting_fields_bounded [LimiterOp.allow 0 cidA] cidA
  refine ⟨hf 1 1 ⟨0, 1⟩ (by norm_num) ?_, ht 1 1 ⟨0, 0⟩ (by norm_num) (by norm_num)
    (by simp [opsMono]) ?_, hl 1 1 ⟨1, 0⟩ (by norm_num) (by norm_num)
    (by simp [opsMono]) ?_⟩
  · norm_num [execFixed, FixedWindowStrategy.IsRequestAllowed,
      NewFixedWindowStrategy, updateMap]
  · norm_num [execToken, TokenBucketStrategy.IsRequestAllowed,
      NewTokenBucketStrategy, updateMap]
  · norm_num [execLeaky, LeakyBucketStrategy.IsRequestAllowed,
      NewLeakyBucketStrategy, updateMap]

/-- Unfold one sliding-window admission call once the stored (or default)
timestamp list is known. -/
lemma sliding_isAllowed_eq (s : SlidingWindowStrategy) (now : Instant)
    (cid : ClientId) (l : List Instant) (h0 : (s.clients cid).getD [] = l) :
    s.IsRequestAllowed now cid =
      if ((trimOld now s.WindowSize l).length : ℤ) < s.Limit then
        (true, ⟨s.Limit, s.WindowSize,
          updateMap s.clients cid (trimOld now s.WindowSize l ++ [now])⟩)
      else
        (false, ⟨s.Limit, s.WindowSize,
          updateMap s.clients cid (trimOld now s.WindowSize l)⟩) := by
  simp only [SlidingWindowStrategy.IsRequestAllowed, h0]

/-- Trimming at a later instant absorbs any earlier trim. -/
lemma trimOld_trimOld (now now' W : ℚ) (h : now ≤ now') (l : List Instant) :
    trimOld now' W (trimOld now W l) = trimOld now' W l := by
  induction l with
  | nil => rfl
  | cons t rest ih =>
    by_cases hp : now - t < W
    · by_cases hq : now' - t < W <;> simp [trimOld, hp, hq, ih]
    · have hq : ¬ (now' - t < W) := by
        intro hcon
        apply hp
        linarith
      simp [trimOld, hp, hq, ih]

/-- Two successive writes to the same key collapse to the last one. -/
lemma updateMap_updateMap {α : Type} (m : ClientId → Option α) (k : ClientId)
    (v w : α) : updateMap (updateMap m k v) k w = updateMap m k w := by
  funext c
  by_cases hc : c = k <;> simp [updateMap, hc]

/-- The sliding-window RetryAfter leaves the strategy unchanged when nothing
is stored, and otherwise persists exactly the trimmed timestamp list. -/
lemma sliding_retryAfter_state (s : SlidingWindowStrategy) (now : Instant)
    (cid : ClientId) :
    (s.RetryAfter now cid).2 =
      if ((s.clients cid).getD []).length = 0 then s
      else ⟨s.Limit, s.WindowSize,
        updateMap s.clients cid (trimOld now s.WindowSize ((s.clients cid).getD []))⟩ := by
  simp only [SlidingWindowStrategy.RetryAfter]
  by_cases h0 : ((s.clients cid).getD []).length = 0
  · rw [if_pos h0, if_pos h0]
  · rw [if_neg h0, if_neg h0]
    repeat' split
    all_goals rfl

/-- One sliding-window RetryAfter call before an admission check at the same
or a later instant changes neither the admission result nor the resulting
state. -/
lemma sliding_retry_then_allow (s : SlidingWindowStrategy) (now now' : Instant)
    (cid : ClientId) (h : now ≤ now') :
    ((s.RetryAfter now cid).2).IsRequestAllowed now' cid =
      s.IsRequestAllowed now' cid := by
  rw [sliding_retryAfter_state]
  by_cases h0 : ((s.clients cid).getD []).length = 0
  · rw [if_pos h0]
  · rw [if_neg h0]
    rw [sliding_isAllowed_eq _ now' cid
        (trimOld now s.WindowSize ((s.clients cid).getD [])) (by simp [updateMap_same]),
      sliding_isAllowed_eq s now' cid ((s.clients cid).getD []) rfl]
    dsimp only
    rw [trimOld_trimOld now now' s.WindowSize h, updateMap_updateMap, updateMap_updateMap]

/-- Any sequence of sliding-window RetryAfter calls at instants no later than
the next admission check leaves that admission call with identical behavior. -/
lemma applySlidingRetries_allow (cid : ClientId) :
    ∀ (ts : List Instant) (s : SlidingWindowStrategy) (now' : Instant),
      (∀ t ∈ ts, t ≤ now') →
      (applySlidingRetries cid ts s).IsRequestAllowed now' cid =
        s.IsRequestAllowed now' cid := by
  intro ts
  induction ts with
  | nil => intro s now' _; rfl
  | cons t ts ih =>
    intro s now' hall
    simp only [applySlidingRetries]
    rw [ih (s.RetryAfter t cid).2 now' (fun u hu => hall u (List.mem_cons_of_mem _ hu)),
      sliding_retry_then_allow s t now' cid (hall t (List.mem_cons_self _ _))]

/-- Claim C7: RetryAfter never consumes capacity: the fixed-window RetryAfter
performs no writes (and the spec-modelled token- and leaky-bucket RetryAfter
are stateless), while the sliding-window RetryAfter only prunes expired
timestamps: after any number of RetryAfter calls, a subsequent
IsRequestAllowed call at any instant no earlier than those calls (the
monotonic clock) produces the identical result and identical state. -/
theorem retryAfter_does_not_consume_capacity :
    (∀ (s : FixedWindowStrategy) (now : Instant) (cid : ClientId),
      (s.RetryAfter now cid).2 = s)
    ∧ (∀ (s : TokenBucketStrategy) (now : Instant) (cid : ClientId),
      (s.RetryAfter now cid).2 = s)
    ∧ (∀ (s : LeakyBucketStrategy) (now : Instant) (cid : ClientId),
      (s.RetryAfter now cid).2 = s)
    ∧ (∀ (s : SlidingWindowStrategy) (cid : ClientId) (ts : List Instant)
        (now' : Instant), (∀ t ∈ ts, t ≤ now') →
      (applySlidingRetries cid ts s).IsRequestAllowed now' cid =
        s.IsRequestAllowed now' cid) :=
  ⟨fixed_retryAfter_no_write, token_retryAfter_no_write,
    leaky_retryAfter_no_write,
    fun s cid ts now' h => applySlidingRetries_allow cid ts s now' h⟩

/-- Witness for retryAfter_does_not_consume_capacity: two RetryAfter calls
between two admission calls for the same client. -/
theorem retryAfter_does_not_consume_capacity_witness :
    (applySlidingRetries cidA [1, 2]
        ((NewSlidingWindowStrategy 2 10).IsRequestAllowed 0 cidA).2).IsRequestAllowed 2 cidA =
      (((NewSlidingWindowStrategy 2 10).IsRequestAllowed 0 cidA).2).IsRequestAllowed 2 cidA :=
  retryAfter_does_not_consume_capacity.2.2.2
    ((NewSlidingWindowStrategy 2 10).IsRequestAllowed 0 cidA).2 cidA [1, 2] 2
    (by intro t ht; fin_cases ht <;> norm_num)

/-- Claim C5 (amended): each sliding-window IsRequestAllowed call drops
exactly the timestamps aged windowSize or more (every t with now - t less
than windowSize is kept; the boundary timestamp with now - t equal to
windowSize is dropped); it returns true and appends now exactly when fewer
than limit timestamps remain after that drop; on false the trimmed list
(without now) is what stays persisted, and no other client's list changes. -/
theorem sliding_trim_append_characterization (s : SlidingWindowStrategy)
    (now : Instant) (cid : ClientId) :
    ((s.IsRequestAllowed now cid).1 = decide
      (((((s.clients cid).getD []).filter
        (fun t => decide (now - t < s.WindowSize))).length : ℤ) < s.Limit))
    ∧ ((s.IsRequestAllowed now cid).2.clients cid = some
      (if ((((s.clients cid).getD []).filter
          (fun t => decide (now - t < s.WindowSize))).length : ℤ) < s.Limit
        then ((s.clients cid).getD []).filter
          (fun t => decide (now - t < s.WindowSize)) ++ [now]
        else ((s.clients cid).getD []).filter
          (fun t => decide (now - t < s.WindowSize))))
    ∧ (∀ c, c ≠ cid → (s.IsRequestAllowed now cid).2.clients c = s.clients c) := by
  rw [sliding_isAllowed_eq s now cid _ rfl, trimOld_eq_filter]
  by_cases hcond : ((((s.clients cid).getD []).filter
      (fun t => decide (now - t < s.WindowSize))).length : ℤ) < s.Limit
  · rw [if_pos hcond, if_pos hcond]
    exact ⟨by simp [hcond], by simp [updateMap_same],
      fun c hc => updateMap_other _ _ _ _ hc⟩
  · rw [if_neg hcond, if_neg hcond]
    exact ⟨by simp [hcond], by simp [updateMap_same],
      fun c hc => updateMap_other _ _ _ _ hc⟩

/-- Claim C5 counterexample, at the window boundary: with limit 1 and
windowSize 5, a request admitted at instant 0 stores the timestamp 0; at
instant 5 that timestamp is exactly windowSize old, hence not older than
now - windowSize = 0, so under the claim's drop predicate it remains and the
call must deny - but the code drops it and returns true. -/
theorem sliding_trim_append_counterexample :
    ((((NewSlidingWindowStrategy 1 5).IsRequestAllowed 0 cidA).2).clients cidA = some [0])
    ∧ ((((NewSlidingWindowStrategy 1 5).IsRequestAllowed 0 cidA).2).IsRequestAllowed 5 cidA).1 = true
    ∧ ¬ (((specTrimOlderThan 5 5 [0]).length : ℤ) <
        (NewSlidingWindowStrategy 1 5).Limit) := by
  refine ⟨?_, ?_, ?_⟩
  · norm_num [SlidingWindowStrategy.IsRequestAllowed, NewSlidingWindowStrategy,
      updateMap, trimOld]
  · norm_num [SlidingWindowStrategy.IsRequestAllowed, NewSlidingWindowStrategy,
      updateMap, trimOld]
  · norm_num [specTrimOlderThan, NewSlidingWindowStrategy]

/-- The fixed-window RetryAfter never reports a negative wait. -/
lemma fixed_retryAfter_value (s : FixedWindowStrategy) (now : Instant)
    (cid : ClientId) : 0 ≤ (s.RetryAfter now cid).1 := by
  cases hc : s.clients cid with
  | none => simp [FixedWindowStrategy.RetryAfter, hc]
  | some st =>
    simp only [FixedWindowStrategy.RetryAfter, hc]
    split
    · exact le_refl 0
    · next hcond =>
      dsimp only
      have := not_lt.mp hcond
      linarith

/-- The sliding-window RetryAfter never reports a negative wait. -/
lemma sliding_retryAfter_value (s : SlidingWindowStrategy) (now : Instant)
    (cid : ClientId) (d : ℚ) (h : (s.RetryAfter now cid).1 = some d) :
    0 ≤ d := by
  simp only [SlidingWindowStrategy.RetryAfter] at h
  split at h
  · simp at h
    linarith
  · split at h
    · simp at h
      linarith
    · split at h
      · simp at h
      · simp at h
        split at h <;> linarith

/-- The spec-modelled token-bucket RetryAfter never reports a negative wait. -/
lemma token_retryAfter_value (s : TokenBucketStrategy) (now : Instant)
    (cid : ClientId) : 0 ≤ (s.RetryAfter now cid).1 := by
  cases hc : s.clients cid with
  | none => simp [TokenBucketStrategy.RetryAfter, hc]
  | some st =>
    simp only [TokenBucketStrategy.RetryAfter, hc]
    exact le_max_left 0 _

/-- The spec-modelled leaky-bucket RetryAfter never reports a negative finite
wait. -/
lemma leaky_retryAfter_value (s : LeakyBucketStrategy) (now : Instant)
    (cid : ClientId) (d : ℚ) (h : (s.RetryAfter now cid).1 = some d) :
    0 ≤ d := by
  cases hc : s.clients cid with
  | none =>
    simp [LeakyBucketStrategy.RetryAfter, hc] at h
    linarith
  | some st =>
    simp only [LeakyBucketStrategy.RetryAfter, hc] at h
    split at h
    · simp at h
      linarith
    · split at h
      · next hfull hlr =>
        simp at h
        rw [← h]
        apply div_nonneg _ (le_of_lt hlr)
        have := not_lt.mp hfull
        linarith
      · simp at h

/-- With a nonpositive limit a sliding-window strategy only ever stores empty
timestamp lists (the deny branch persists the trim of an empty list). -/
def slidingLimitEmptyInv (s : SlidingWindowStrategy) : Prop :=
  ∀ cid l, s.clients cid = some l → s.Limit ≤ 0 → l = []

/-- One admission call preserves the nonpositive-limit emptiness invariant. -/
lemma slidingLimitEmptyInv_allow (s : SlidingWindowStrategy) (now : Instant)
    (cid : ClientId) (h : slidingLimitEmptyInv s) :
    slidingLimitEmptyInv (s.IsRequestAllowed now cid).2 := by
  rw [sliding_isAllowed_eq s now cid _ rfl]
  by_cases hcond : ((trimOld now s.WindowSize ((s.clients cid).getD [])).length : ℤ) < s.Limit
  · rw [if_pos hcond]
    intro cid' l' h' hL
    exfalso
    have hL' : s.Limit ≤ 0 := hL
    omega
  · rw [if_neg hcond]
    intro cid' l' h' hL
    rcases updateMap_cases _ _ _ _ _ h' with hv | hold
    · subst hv
      cases hc : s.clients cid with
      | none => simp [hc, trimOld]
      | some l0 =>
        have hl0 : l0 = [] := h cid l0 hc hL
        simp [hc, hl0, trimOld]
    · exact h cid' l' hold hL

/-- One RetryAfter call preserves the nonpositive-limit emptiness invariant. -/
lemma slidingLimitEmptyInv_retry (s : SlidingWindowStrategy) (now : Instant)
    (cid : ClientId) (h : slidingLimitEmptyInv s) :
    slidingLimitEmptyInv (s.RetryAfter now cid).2 := by
  rw [sliding_retryAfter_state]
  by_cases h0 : ((s.clients cid).getD []).length = 0
  · rw [if_pos h0]
    exact h
  · rw [if_neg h0]
    intro cid' l' h' hL
    rcases updateMap_cases _ _ _ _ _ h' with hv | hold
    · exfalso
      cases hc : s.clients cid with
      | none => rw [hc] at h0; simp at h0
      | some l0 =>
        have hl0 : l0 = [] := h cid l0 hc hL
        rw [hc, hl0] at h0
        simp at h0
    · exact h cid' l' hold hL

/-- Running any trace preserves the nonpositive-limit emptiness invariant. -/
lemma slidingLimitEmptyInv_exec : ∀ (ops : List LimiterOp)
    (s : SlidingWindowStrategy), slidingLimitEmptyInv s →
    slidingLimitEmptyInv (execSliding ops s) := by
  intro ops
  induction ops with
  | nil => exact fun s h => h
  | cons op rest ih =>
    intro s h
    cases op with
    | allow t cid => exact ih _ (slidingLimitEmptyInv_allow s t cid h)
    | retry t cid => exact ih _ (slidingLimitEmptyInv_retry s t cid h)

/-- On any strategy satisfying the emptiness invariant, RetryAfter always
reaches a some-result: the branch where the source would index an empty
trimmed list (Go would panic) is unreachable. -/
lemma sliding_retryAfter_total (s : SlidingWindowStrategy)
    (h : slidingLimitEmptyInv s) (now : Instant) (cid : ClientId) :
    ∃ d, (s.RetryAfter now cid).1 = some d := by
  simp only [SlidingWindowStrategy.RetryAfter]
  by_cases h0 : ((s.clients cid).getD []).length = 0
  · rw [if_pos h0]
    exact ⟨0, rfl⟩
  · rw [if_neg h0]
    by_cases hcond : ((trimOld now s.WindowSize ((s.clients cid).getD [])).length : ℤ) < s.Limit
    · rw [if_pos hcond]
      exact ⟨0, rfl⟩
    · rw [if_neg hcond]
      have hL1 : 1 ≤ s.Limit := by
        by_contra hL
        push_neg at hL
        cases hc : s.clients cid with
        | none => rw [hc] at h0; simp at h0
        | some l0 =>
          have hl0 : l0 = [] := h cid l0 hc (by omega)
          rw [hc, hl0] at h0
          simp at h0
      have hlen : 1 ≤ (trimOld now s.WindowSize ((s.clients cid).getD [])).length := by
        omega
      cases hfel : trimOld now s.WindowSize ((s.clients cid).getD []) with
      | nil => rw [hfel] at hlen; simp at hlen
      | cons a rest => exact ⟨_, rfl⟩

/-- Claim C2: all four strategies implement the identical two-method
contract: both decision functions are total for every client id including
never-seen ones (the sliding-window RetryAfter, whose source indexes the
trimmed list, never reaches that panic branch from any state reachable from
a fresh strategy), and every wait RetryAfter returns is nonnegative.  The
token- and leaky-bucket RetryAfter are modelled from the spec - the
leaky-bucket unbounded sentinel for a full never-leaking bucket is none and
carries no finite wait. -/
theorem shared_contract_retryAfter_nonneg :
    (∀ (s : FixedWindowStrategy) (now : Instant) (cid : ClientId),
      0 ≤ (s.RetryAfter now cid).1)
    ∧ (∀ (s : SlidingWindowStrategy) (now : Instant) (cid : ClientId) (d : ℚ),
      (s.RetryAfter now cid).1 = some d → 0 ≤ d)
    ∧ (∀ (L : ℤ) (W : ℚ) (ops : List LimiterOp) (now : Instant) (cid : ClientId),
      ∃ d, ((execSliding ops (NewSlidingWindowStrategy L W)).RetryAfter now cid).1 = some d)
    ∧ (∀ (s : TokenBucketStrategy) (now : Instant) (cid : ClientId),
      0 ≤ (s.RetryAfter now cid).1)
    ∧ (∀ (s : LeakyBucketStrategy) (now : Instant) (cid : ClientId) (d : ℚ),
      (s.RetryAfter now cid).1 = some d → 0 ≤ d) := by
  refine ⟨fixed_retryAfter_value, sliding_retryAfter_value, ?_,
    token_retryAfter_value, leaky_retryAfter_value⟩
  intro L W ops now cid
  apply sliding_retryAfter_total
  apply slidingLimitEmptyInv_exec
  intro cid' l' h'
  simp [NewSlidingWindowStrategy] at h'

/-- Witness for shared_contract_retryAfter_nonneg at concrete fresh
strategies. -/
theorem shared_contract_retryAfter_nonneg_witness :
    (0 ≤ ((NewFixedWindowStrategy 1 1).RetryAfter 0 cidA).1)
    ∧ (0 ≤ (0 : ℚ))
    ∧ (∃ d, ((execSliding [] (NewSlidingWindowStrategy 1 1)).RetryAfter 0 cidA).1 = some d)
    ∧ (0 ≤ ((NewTokenBucketStrategy 1 1).RetryAfter 0 cidA).1)
    ∧ (0 ≤ (0 : ℚ)) := by
  obtain ⟨h1, h2, h3, h4, h5⟩ := shared_contract_retryAfter_nonneg
  refine ⟨h1 (NewFixedWindowStrategy 1 1) 0 cidA, ?_, h3 1 1 [] 0 cidA,
    h4 (NewTokenBucketStrategy 1 1) 0 cidA, ?_⟩
  · exact h2 (NewSlidingWindowStrategy 1 1) 0 cidA 0
      (by norm_num [SlidingWindowStrategy.RetryAfter, NewSlidingWindowStrategy])
  · exact h5 (NewLeakyBucketStrategy 1 1) 0 cidA 0
      (by norm_num [LeakyBucketStrategy.RetryAfter, NewLeakyBucketStrategy])

/-- A timestamp surviving the trim was stored and is still inside the window. -/
lemma trimOld_mem (now W : ℚ) (l : List Instant) (t : Instant)
    (h : t ∈ trimOld now W l) : t ∈ l ∧ now - t < W := by
  rw [trimOld_eq_filter] at h
  have hf := List.mem_filter.mp h
  exact ⟨hf.1, by simpa using hf.2⟩

/-- With a positive limit, the sliding-window RetryAfter reports a zero wait
exactly when an admission check at the same instant would succeed. -/
lemma sliding_retryAfter_zero_iff (s : SlidingWindowStrategy) (now : Instant)
    (cid : ClientId) (hL : 1 ≤ s.Limit) :
    ((s.RetryAfter now cid).1 = some 0 ↔ (s.IsRequestAllowed now cid).1 = true) := by
  rw [sliding_isAllowed_eq s now cid _ rfl]
  simp only [SlidingWindowStrategy.RetryAfter]
  by_cases h0 : ((s.clients cid).getD []).length = 0
  · rw [if_pos h0]
    have hnil : (s.clients cid).getD [] = [] := List.length_eq_zero.mp h0
    rw [hnil]
    have : ((trimOld now s.WindowSize []).length : ℤ) < s.Limit := by
      simp [trimOld]
      omega
    rw [if_pos this]
    simp
  · rw [if_neg h0]
    by_cases hcond : ((trimOld now s.WindowSize ((s.clients cid).getD [])).length : ℤ) < s.Limit
    · rw [if_pos hcond, if_pos hcond]
      simp
    · rw [if_neg hcond, if_neg hcond]
      cases hfel : trimOld now s.WindowSize ((s.clients cid).getD []) with
      | nil =>
        exfalso
        rw [hfel] at hcond
        simp at hcond
        omega
      | cons oldest rest =>
        have hmem := trimOld_mem now s.WindowSize ((s.clients cid).getD []) oldest
          (hfel ▸ List.mem_cons_self oldest rest)
        have hw : 0 < oldest + s.WindowSize - now := by linarith [hmem.2]
        dsimp only
        rw [if_neg (by linarith : ¬ (oldest + s.WindowSize - now < 0))]
        simp [ne_of_gt hw]

/-- On a well-formed stored list (sorted, within the limit), a positive
sliding-window RetryAfter wait is minimal: after exactly that wait the next
admission check succeeds, and after any shorter wait it still fails. -/
lemma sliding_retryAfter_minimal (s : SlidingWindowStrategy) (now : Instant)
    (cid : ClientId) (l : List Instant) (w : ℚ) (hcl : s.clients cid = some l)
    (hsort : l.Sorted (· ≤ ·)) (hlen : (l.length : ℤ) ≤ s.Limit)
    (hval : (s.RetryAfter now cid).1 = some w) (hw : 0 < w) :
    ((((s.RetryAfter now cid).2).IsRequestAllowed (now + w) cid).1 = true)
    ∧ ∀ w', 0 ≤ w' → w' < w →
      (((s.RetryAfter now cid).2).IsRequestAllowed (now + w') cid).1 = false := by
  simp only [SlidingWindowStrategy.RetryAfter, hcl, Option.getD_some] at hval
  by_cases h0 : l.length = 0
  · rw [if_pos h0] at hval
    simp at hval
    linarith
  · rw [if_neg h0] at hval
    by_cases hcond : ((trimOld now s.WindowSize l).length : ℤ) < s.Limit
    · rw [if_pos hcond] at hval
      simp at hval
      linarith
    · rw [if_neg hcond] at hval
      cases hfel : trimOld now s.WindowSize l with
      | nil =>
        exfalso
        rw [hfel] at hcond
        simp at hcond
        have hl1 : 1 ≤ l.length := Nat.one_le_iff_ne_zero.mpr h0
        omega
      | cons oldest rest =>
        rw [hfel] at hval
        dsimp only at hval
        have hmem := trimOld_mem now s.WindowSize l oldest
          (hfel ▸ List.mem_cons_self oldest rest)
        have hwait : 0 < oldest + s.WindowSize - now := by linarith [hmem.2]
        rw [if_neg (by linarith : ¬ (oldest + s.WindowSize - now < 0))] at hval
        have hweq : oldest + s.WindowSize - now = w := by simpa using hval
        have hstate : (s.RetryAfter now cid).2 = ⟨s.Limit, s.WindowSize,
            updateMap s.clients cid (trimOld now s.WindowSize l)⟩ := by
          rw [sliding_retryAfter_state]
          simp only [hcl, Option.getD_some]
          rw [if_neg h0]
        have hfsorted : (trimOld now s.WindowSize l).Sorted (· ≤ ·) := by
          rw [trimOld_eq_filter]
          exact hsort.filter _
        have hheadle : ∀ t ∈ trimOld now s.WindowSize l, oldest ≤ t := by
          intro t ht
          rw [hfel] at ht hfsorted
          rcases List.mem_cons.mp ht with h1 | h2
          · rw [h1]
          · exact (List.pairwise_cons.mp hfsorted).1 t h2
        have hflen : (trimOld now s.WindowSize l).length ≤ l.length := by
          rw [trimOld_eq_filter]
          exact List.length_filter_le _ _
        rw [hstate]
        constructor
        · rw [sliding_isAllowed_eq _ (now + w) cid (trimOld now s.WindowSize l)
            (by simp [updateMap_same])]
          dsimp only
          have hdrop : ¬ ((now + w) - oldest < s.WindowSize) := by
            rw [← hweq]
            intro hcon
            linarith
          have htrim2 : trimOld (now + w) s.WindowSize (trimOld now s.WindowSize l) =
              trimOld (now + w) s.WindowSize rest := by
            rw [hfel]
            simp only [trimOld, if_neg hdrop]
          have h1 : (trimOld (now + w) s.WindowSize rest).length ≤ rest.length := by
            rw [trimOld_eq_filter]
            exact List.length_filter_le _ _
          have h2 : rest.length + 1 = (trimOld now s.WindowSize l).length := by
            rw [hfel]
            rfl
          rw [if_pos (by rw [htrim2]; omega)]
        · intro w' hw0 hw1
          rw [sliding_isAllowed_eq _ (now + w') cid (trimOld now s.WindowSize l)
            (by simp [updateMap_same])]
          dsimp only
          have hall : trimOld (now + w') s.WindowSize (trimOld now s.WindowSize l) =
              trimOld now s.WindowSize l := by
            rw [trimOld_eq_filter (now + w')]
            apply List.filter_eq_self.mpr
            intro a ha
            have hoa := hheadle a ha
            simp only [decide_eq_true_eq]
            linarith [hweq]
          rw [hall, if_neg hcond]

/-- The fixed-window RetryAfter computes the remaining window time, with no
reference to the request count. -/
lemma fixed_retryAfter_eq (s : FixedWindowStrategy) (now : Instant)
    (cid : ClientId) :
    (s.RetryAfter now cid).1 = match s.clients cid with
      | none => 0
      | some st => if st.WindowStart + s.WindowSize < now then 0
          else st.WindowStart + s.WindowSize - now := by
  cases hc : s.clients cid with
  | none => simp [FixedWindowStrategy.RetryAfter, hc]
  | some st =>
    simp only [FixedWindowStrategy.RetryAfter, hc]
    split <;> rfl

/-- Claim C1 (amended): for the sliding window, RetryAfter reports a zero
wait exactly when an admission check at the same instant would succeed, and a
positive reported wait is the minimum wait after which capacity exists (on a
well-formed stored list: sorted, no longer than the limit; limit at least 1).
For the fixed window the claim fails: RetryAfter reports the remaining time
of the stored window regardless of the request count, so it can be positive
even when an admission check would succeed. -/
theorem retryAfter_zero_iff_allowed_amended :
    (∀ (s : SlidingWindowStrategy) (now : Instant) (cid : ClientId),
      1 ≤ s.Limit →
      ((s.RetryAfter now cid).1 = some 0 ↔ (s.IsRequestAllowed now cid).1 = true))
    ∧ (∀ (s : SlidingWindowStrategy) (now : Instant) (cid : ClientId)
        (l : List Instant) (w : ℚ), s.clients cid = some l →
      l.Sorted (· ≤ ·) → (l.length : ℤ) ≤ s.Limit →
      (s.RetryAfter now cid).1 = some w → 0 < w →
      ((((s.RetryAfter now cid).2).IsRequestAllowed (now + w) cid).1 = true
        ∧ ∀ w', 0 ≤ w' → w' < w →
          (((s.RetryAfter now cid).2).IsRequestAllowed (now + w') cid).1 = false))
    ∧ (∀ (s : FixedWindowStrategy) (now : Instant) (cid : ClientId),
      (s.RetryAfter now cid).1 = match s.clients cid with
        | none => 0
        | some st => if st.WindowStart + s.WindowSize < now then 0
            else st.WindowStart + s.WindowSize - now)
    ∧ (∀ (s : FixedWindowStrategy) (now : Instant) (cid : ClientId)
        (st : FixedWindowState) (c2 : ℤ), s.clients cid = some st →
      ((⟨s.Limit, s.WindowSize, updateMap s.clients cid
          ⟨st.WindowStart, c2⟩⟩ : FixedWindowStrategy).RetryAfter now cid).1 =
        (s.RetryAfter now cid).1) := by
  refine ⟨sliding_retryAfter_zero_iff,
    fun s now cid l w h1 h2 h3 h4 h5 => sliding_retryAfter_minimal s now cid l w h1 h2 h3 h4 h5,
    fixed_retryAfter_eq, ?_⟩
  intro s now cid st c2 hcl
  rw [fixed_retryAfter_eq, fixed_retryAfter_eq]
  simp [updateMap_same, hcl]

/-- Claim C1 counterexample: a fixed window with limit 2 and windowSize 10,
after one admitted request at instant 0: still at instant 0 an admission
check would succeed (one request of two used), yet RetryAfter reports the
full remaining window of 10 rather than 0. -/
theorem retryAfter_zero_iff_allowed_counterexample :
    ¬ (((((NewFixedWindowStrategy 2 10).IsRequestAllowed 0 cidA).2).RetryAfter 0 cidA).1 = 0 ↔
      ((((NewFixedWindowStrategy 2 10).IsRequestAllowed 0 cidA).2).IsRequestAllowed 0 cidA).1 = true) := by
  have h1 : ((((NewFixedWindowStrategy 2 10).IsRequestAllowed 0 cidA).2).RetryAfter 0 cidA).1 = 10 := by
    norm_num [FixedWindowStrategy.IsRequestAllowed, FixedWindowStrategy.RetryAfter,
      NewFixedWindowStrategy, updateMap]
  have h2 : ((((NewFixedWindowStrategy 2 10).IsRequestAllowed 0 cidA).2).IsRequestAllowed 0 cidA).1 = true := by
    norm_num [FixedWindowStrategy.IsRequestAllowed, NewFixedWindowStrategy, updateMap]
  rw [h1, h2]
  norm_num

/-- Witness for retryAfter_zero_iff_allowed_amended: concrete instances of
all four conjuncts, with a sliding window holding one timestamp whose
RetryAfter reports a wait of 4 at instant 1. -/
theorem retryAfter_zero_iff_allowed_amended_witness :
    ((((NewSlidingWindowStrategy 1 1).RetryAfter 0 cidA).1 = some 0 ↔
      ((NewSlidingWindowStrategy 1 1).IsRequestAllowed 0 cidA).1 = true))
    ∧ (((((((NewSlidingWindowStrategy 1 5).IsRequestAllowed 0 cidA).2).RetryAfter 1 cidA).2).IsRequestAllowed (1 + 4) cidA).1 = true
        ∧ ∀ w', 0 ≤ w' → w' < 4 →
          (((((NewSlidingWindowStrategy 1 5).IsRequestAllowed 0 cidA).2.RetryAfter 1 cidA).2).IsRequestAllowed (1 + w') cidA).1 = false)
    ∧ (((NewFixedWindowStrategy 3 7).RetryAfter 0 cidA).1 =
        match (NewFixedWindowStrategy 3 7).clients cidA with
        | none => 0
        | some st => if st.WindowStart + (NewFixedWindowStrategy 3 7).WindowSize < 0 then 0
            else st.WindowStart + (NewFixedWindowStrategy 3 7).WindowSize - 0)
    ∧ (((⟨((NewFixedWindowStrategy 2 10).IsRequestAllowed 0 cidA).2.Limit,
          ((NewFixedWindowStrategy 2 10).IsRequestAllowed 0 cidA).2.WindowSize,
          updateMap ((NewFixedWindowStrategy 2 10).IsRequestAllowed 0 cidA).2.clients cidA
            ⟨(0 : ℚ), (5 : ℤ)⟩⟩ : FixedWindowStrategy).RetryAfter 3 cidA).1 =
        ((((NewFixedWindowStrategy 2 10).IsRequestAllowed 0 cidA).2).RetryAfter 3 cidA).1) := by
  obtain ⟨hz, hm, he, hi⟩ := retryAfter_zero_iff_allowed_amended
  refine ⟨hz (NewSlidingWindowStrategy 1 1) 0 cidA (by norm_num [NewSlidingWindowStrategy]),
    hm (((NewSlidingWindowStrategy 1 5).IsRequestAllowed 0 cidA).2) 1 cidA [0] 4
      ?_ (by simp) ?_ ?_ (by norm_num),
    he (NewFixedWindowStrategy 3 7) 0 cidA,
    hi (((NewFixedWindowStrategy 2 10).IsRequestAllowed 0 cidA).2) 3 cidA ⟨0, 1⟩ 5 ?_⟩
  · norm_num [SlidingWindowStrategy.IsRequestAllowed, NewSlidingWindowStrategy,
      updateMap, trimOld]
  · norm_num [SlidingWindowStrategy.IsRequestAllowed, NewSlidingWindowStrategy,
      updateMap, trimOld]
  · norm_num [SlidingWindowStrategy.IsRequestAllowed, SlidingWindowStrategy.RetryAfter,
      NewSlidingWindowStrategy, updateMap, trimOld]
  · norm_num [FixedWindowStrategy.IsRequestAllowed, NewFixedWindowStrategy, updateMap]
